import Mathlib

/-!
# Verification of the flowscrape adaptive extraction engine

A shallow embedding of the core of the `flowscrape` repository
(`src/learn/learn.ts`, `src/extract/extract.ts`, `src/extract/resolvers.ts`,
`src/engine.raw.ts`) together with theorems settling the frozen claims about
the natural-language specification.

Strings of the JavaScript source are modelled as `List Char` (abbreviated
`Str`): every character-level regular-expression operation of the source is
embedded as an executable scanner with JavaScript backtracking semantics.
External collaborators (the cheerio DOM, the platform `URL` and `RegExp`
objects, `JSON.parse`, the clock, `Math.random`) are modelled as explicit
oracle parameters; everything written in the repository itself is translated
function by function.
-/

namespace Flowscrape

/-- JavaScript strings, modelled as lists of characters. -/
abbrev Str := List Char

/-! ## Basic character classes and string helpers -/

/-- Digit `0`-`9` (the JS `\d` class). -/
def isDig (c : Char) : Bool := 48 ≤ c.toNat && c.toNat ≤ 57

/-- The JS `\s` whitespace class (common members; exotic Unicode spaces of the
full class do not occur in any input considered here). -/
def jsSpace (c : Char) : Bool :=
  c = ' ' || c = '\t' || c = '\n' || c = '\r' ||
  c.toNat = 11 || c.toNat = 12 || c.toNat = 160 || c.toNat = 65279

/-- The JS `\w` word-character class `[A-Za-z0-9_]`. -/
def isWordChar (c : Char) : Bool :=
  (65 ≤ c.toNat && c.toNat ≤ 90) || (97 ≤ c.toNat && c.toNat ≤ 122) ||
  isDig c || c = '_'

/-- `String.prototype.trim()`. -/
def trimJS (l : Str) : Str :=
  ((l.dropWhile jsSpace).reverse.dropWhile jsSpace).reverse

theorem length_dropWhile_le {α} (p : α → Bool) (l : List α) :
    (l.dropWhile p).length ≤ l.length := by
  induction l with
  | nil => simp [List.dropWhile]
  | cons a as ih =>
    rw [List.dropWhile_cons]
    split
    · exact Nat.le_succ_of_le ih
    · simp

theorem length_takeWhile_le {α} (p : α → Bool) (l : List α) :
    (l.takeWhile p).length ≤ l.length := by
  induction l with
  | nil => simp [List.takeWhile]
  | cons a as ih =>
    rw [List.takeWhile_cons]
    split
    · simpa using ih
    · simp

/-- `replace(/\s+/g, " ")`: collapse every whitespace run to one space.
The Boolean flag records whether the scanner is inside a whitespace run. -/
def collapseGo : Bool → Str → Str
  | _, [] => []
  | inRun, c :: r =>
    if jsSpace c then
      if inRun then collapseGo true r else ' ' :: collapseGo true r
    else c :: collapseGo false r

def collapseWS (l : Str) : Str := collapseGo false l

/-- `replace(/\s+/g, "")`: delete every whitespace character. -/
def removeWS (l : Str) : Str := l.filter (fun c => !jsSpace c)

/-- Split on `,` (the `String.prototype.split(",")` used by `toArray`). -/
def splitComma (l : Str) : List Str :=
  go l [] where
  go : Str → Str → List Str
    | [], acc => [acc.reverse]
    | c :: r, acc => if c = ',' then acc.reverse :: go r [] else go r (c :: acc)

/-- First-occurrence deduplication, as performed by
`Array.from(new Set(xs))`: keep an element iff it is not in the set of
elements already seen. -/
def dedupGo : List Str → List Str → List Str
  | [], _ => []
  | x :: xs, seen =>
    if seen.contains x then dedupGo xs seen else x :: dedupGo xs (x :: seen)

def dedupF (l : List Str) : List Str := dedupGo l []

theorem dedupGo_subset {x : Str} {l seen : List Str} (h : x ∈ dedupGo l seen) :
    x ∈ l := by
  induction l generalizing seen with
  | nil => simp [dedupGo] at h
  | cons a as ih =>
    rw [dedupGo] at h
    split at h
    · exact List.mem_cons_of_mem _ (ih h)
    · rcases List.mem_cons.mp h with h | h
      · simp [h]
      · exact List.mem_cons_of_mem _ (ih h)

theorem dedupF_subset {x : Str} {l : List Str} (h : x ∈ dedupF l) : x ∈ l :=
  dedupGo_subset h

theorem dedupGo_not_seen {x : Str} {l seen : List Str}
    (h : x ∈ dedupGo l seen) : x ∉ seen := by
  induction l generalizing seen with
  | nil => simp [dedupGo] at h
  | cons a as ih =>
    rw [dedupGo] at h
    split at h
    · exact ih h
    · next hns =>
      rcases List.mem_cons.mp h with h | h
      · subst h
        intro hmem
        exact hns (List.elem_eq_true_of_mem hmem)
      · intro hmem
        exact ih h (List.mem_cons_of_mem _ hmem)

theorem dedupGo_nodup (l : List Str) : ∀ seen, (dedupGo l seen).Nodup := by
  induction l with
  | nil => intro seen; simp [dedupGo]
  | cons a as ih =>
    intro seen
    rw [dedupGo]
    split
    · exact ih seen
    · refine List.nodup_cons.mpr ⟨fun hmem => ?_, ih (a :: seen)⟩
      exact dedupGo_not_seen hmem (by simp)

theorem dedupF_nodup (l : List Str) : (dedupF l).Nodup := dedupGo_nodup l []

theorem dedupGo_eq_self {l : List Str} (h : l.Nodup) :
    ∀ seen, (∀ x ∈ l, x ∉ seen) → dedupGo l seen = l := by
  induction l with
  | nil => intro seen _; rfl
  | cons a as ih =>
    intro seen hdis
    rw [dedupGo]
    rcases List.nodup_cons.mp h with ⟨hna, hnd⟩
    have hnc : seen.contains a = false := by
      by_contra hc
      rw [Bool.not_eq_false] at hc
      exact hdis a (by simp) (List.mem_of_elem_eq_true hc)
    rw [hnc]
    simp only [Bool.false_eq_true, if_false]
    rw [ih hnd (a :: seen) ?_]
    intro x hx
    intro hmem
    rcases List.mem_cons.mp hmem with h' | h'
    · exact hna (h' ▸ hx)
    · exact hdis x (List.mem_cons_of_mem _ hx) h'

theorem dedupF_eq_self {l : List Str} (h : l.Nodup) : dedupF l = l :=
  dedupGo_eq_self h [] (by simp)

/-! ## `learn.ts`: `stripHashedClasses`

Embedding of `sel.replace(/\.(?:css|chakra|sc|tw|_)[a-z0-9_-]+/gi, "")`:
a left-to-right scan that removes every non-overlapping match of
`.` + keyword (case-insensitive) + a non-empty greedy run of `[a-z0-9_-]` /i.
-/

/-- The `[a-z0-9_-]` class under the `i` flag (so uppercase included). -/
def isCc (c : Char) : Bool :=
  (97 ≤ c.toNat && c.toNat ≤ 122) || (65 ≤ c.toNat && c.toNat ≤ 90) ||
  isDig c || c = '-' || c = '_'

/-- Case-insensitive match of an input char `c` against a lowercase pattern
char `k` (ASCII folding, as the `i` flag does for these patterns). -/
def ciEq (c k : Char) : Bool :=
  c = k || (97 ≤ k.toNat && k.toNat ≤ 122 && c.toNat + 32 = k.toNat)

/-- Match pattern chars `kw` case-insensitively at the front of `l`,
returning the rest. -/
def ciPref : Str → Str → Option Str
  | [], l => some l
  | k :: ks, c :: cs => if ciEq c k then ciPref ks cs else none
  | _ :: _, [] => none

/-- One keyword alternative of the hashed-class pattern: the keyword followed
by a non-empty greedy `[a-z0-9_-]+` run; returns the rest after the match. -/
def tryKw (kw : Str) (r : Str) : Option Str :=
  match ciPref kw r with
  | some (c :: t) => if isCc c then some ((c :: t).dropWhile isCc) else none
  | _ => none

/-- The five keyword alternatives, in the pattern's order. -/
def hashKws : List Str :=
  [['c', 's', 's'], ['c', 'h', 'a', 'k', 'r', 'a'], ['s', 'c'], ['t', 'w'], ['_']]

/-- First keyword alternative that matches (with its mandatory tail) at `r`.
At most one keyword can prefix-match `r`, so this equals the regex's
backtracking alternation. -/
def stripStep (r : Str) : Option Str :=
  go hashKws where
  go : List Str → Option Str
    | [] => none
    | kw :: kws => match tryKw kw r with
      | some t => some t
      | none => go kws

theorem ciPref_length {kw r s : Str} (h : ciPref kw r = some s) :
    s.length + kw.length = r.length := by
  induction kw generalizing r with
  | nil =>
    simp only [ciPref, Option.some.injEq] at h
    subst h; simp
  | cons k ks ih =>
    cases r with
    | nil => simp [ciPref] at h
    | cons c cs =>
      simp only [ciPref] at h
      split at h
      · have := ih h
        simp only [List.length_cons]
        omega
      · exact absurd h (by simp)

theorem tryKw_length {kw r t : Str} (hkw : kw ≠ []) (h : tryKw kw r = some t) :
    t.length < r.length := by
  unfold tryKw at h
  split at h
  · next c s hp =>
    split at h
    · cases h
      have h1 := ciPref_length hp
      have h2 : ((c :: s).dropWhile isCc).length ≤ s.length := by
        next hc =>
        simp only [List.dropWhile_cons, hc, if_pos]
        exact length_dropWhile_le isCc s
      have : kw.length ≥ 1 := by
        cases kw with
        | nil => exact absurd rfl hkw
        | cons _ _ => simp
      simp only [List.length_cons] at h1
      omega
    · exact absurd h (by simp)
  · exact absurd h (by simp)

theorem stripStep_length {r t : Str} (h : stripStep r = some t) :
    t.length < r.length := by
  have : ∀ kws : List Str, (∀ kw ∈ kws, kw ≠ []) →
      stripStep.go r kws = some t → t.length < r.length := by
    intro kws hk
    induction kws with
    | nil => intro h'; simp [stripStep.go] at h'
    | cons kw kws ih =>
      intro h'
      simp only [stripStep.go] at h'
      split at h'
      · next ht => cases h'; exact tryKw_length (hk kw (by simp)) ht
      · exact ih (fun k hm => hk k (List.mem_cons_of_mem _ hm)) h'
  exact this hashKws (by decide) h

/-- `stripHashedClasses` from `learn.ts`: remove unstable / hashed utility
class fragments from a selector. -/
def stripHashedClasses : Str → Str
  | [] => []
  | c :: rest =>
    if c = '.' then
      match hs : stripStep rest with
      | some t => stripHashedClasses t
      | none => c :: stripHashedClasses rest
    else c :: stripHashedClasses rest
termination_by l => l.length
decreasing_by
  · simp only [List.length_cons]
    exact Nat.lt_succ_of_lt (stripStep_length hs)
  · simp
  · simp

theorem stripHashedClasses_nil : stripHashedClasses [] = [] := by
  rw [stripHashedClasses]

theorem stripHashedClasses_dot_some {rest t : Str} (h : stripStep rest = some t) :
    stripHashedClasses ('.' :: rest) = stripHashedClasses t := by
  rw [stripHashedClasses]
  rw [if_pos rfl]
  split
  · next t' heq =>
    rw [h] at heq
    cases heq
    rfl
  · next heq => rw [h] at heq; cases heq

theorem stripHashedClasses_dot_none {rest : Str} (h : stripStep rest = none) :
    stripHashedClasses ('.' :: rest) = '.' :: stripHashedClasses rest := by
  rw [stripHashedClasses]
  rw [if_pos rfl]
  split
  · next t' heq => rw [h] at heq; cases heq
  · rfl

theorem stripHashedClasses_cons_ne {c : Char} {rest : Str} (h : c ≠ '.') :
    stripHashedClasses (c :: rest) = c :: stripHashedClasses rest := by
  rw [stripHashedClasses]
  rw [if_neg h]

theorem ciEq_isCc {c k : Char} (h : ciEq c k = true) (hk : isCc k = true) :
    isCc c = true := by
  simp only [ciEq, Bool.or_eq_true, decide_eq_true_eq, Bool.and_eq_true] at h
  rcases h with h | ⟨⟨h1, h2⟩, h3⟩
  · subst h; exact hk
  · simp only [isCc, Bool.or_eq_true, Bool.and_eq_true, decide_eq_true_eq]
    exact Or.inl (Or.inl (Or.inl (Or.inr ⟨by omega, by omega⟩)))

theorem takeWhile_dropWhile_nil {α} (p : α → Bool) (l : List α) :
    ((l.dropWhile p).takeWhile p) = [] := by
  induction l with
  | nil => simp
  | cons a as ih =>
    rw [List.dropWhile_cons]
    split
    · exact ih
    · next h => rw [List.takeWhile_cons]; simp [h]

theorem stripStep_run_nil {r t : Str} (h : stripStep r = some t) :
    t.takeWhile isCc = [] := by
  have : ∀ kws : List Str, stripStep.go r kws = some t → t.takeWhile isCc = [] := by
    intro kws
    induction kws with
    | nil => intro h'; simp [stripStep.go] at h'
    | cons kw kws ih =>
      intro h'
      simp only [stripStep.go] at h'
      split at h'
      · next ht =>
        cases h'
        unfold tryKw at ht
        split at ht
        · split at ht
          · cases ht
            exact takeWhile_dropWhile_nil isCc _
          · exact absurd ht (by simp)
        · exact absurd ht (by simp)
      · exact ih h'
  exact this hashKws h

theorem tryKw_cons {k c : Char} {ks cs : Str} (h : ciEq c k = true) :
    tryKw (k :: ks) (c :: cs) = tryKw ks cs := by
  unfold tryKw
  simp [ciPref, h]

theorem tryKw_isSome_run {kw : Str} (hkw : ∀ k ∈ kw, isCc k = true) :
    ∀ {r r' : Str}, r.takeWhile isCc = r'.takeWhile isCc →
    (tryKw kw r).isSome = (tryKw kw r').isSome := by
  induction kw with
  | nil =>
    intro r r' hrun
    have head : ∀ s : Str, (tryKw [] s).isSome =
        (match s with | c :: _ => isCc c | [] => false) := by
      intro s
      cases s with
      | nil => rfl
      | cons c t =>
        unfold tryKw
        simp only [ciPref]
        split <;> simp_all
    rw [head, head]
    cases r with
    | nil =>
      cases r' with
      | nil => rfl
      | cons c' cs' =>
        rw [List.takeWhile_cons] at hrun
        simp only [List.takeWhile_nil] at hrun
        split at hrun
        · simp at hrun
        · simp_all
    | cons c cs =>
      cases r' with
      | nil =>
        rw [List.takeWhile_cons] at hrun
        simp only [List.takeWhile_nil] at hrun
        split at hrun
        · simp at hrun
        · simp_all
      | cons c' cs' =>
        rw [List.takeWhile_cons, List.takeWhile_cons] at hrun
        split at hrun <;> split at hrun <;> simp_all
  | cons k ks ih =>
    intro r r' hrun
    have hk : isCc k = true := hkw k (by simp)
    have hks : ∀ x ∈ ks, isCc x = true := fun x hx => hkw x (List.mem_cons_of_mem _ hx)
    cases r with
    | nil =>
      cases r' with
      | nil => rfl
      | cons c' cs' =>
        rw [List.takeWhile_cons] at hrun
        simp only [List.takeWhile_nil] at hrun
        have hcc' : isCc c' = false := by
          split at hrun
          · simp at hrun
          · simp_all
        have hce : ciEq c' k = false := by
          by_contra hcon
          rw [Bool.not_eq_false] at hcon
          rw [ciEq_isCc hcon hk] at hcc'
          simp at hcc'
        unfold tryKw
        simp [ciPref, hce]
    | cons c cs =>
      cases r' with
      | nil =>
        rw [List.takeWhile_cons] at hrun
        simp only [List.takeWhile_nil] at hrun
        have hcc : isCc c = false := by
          split at hrun
          · simp at hrun
          · simp_all
        have hce : ciEq c k = false := by
          by_contra hcon
          rw [Bool.not_eq_false] at hcon
          rw [ciEq_isCc hcon hk] at hcc
          simp at hcc
        unfold tryKw
        simp [ciPref, hce]
      | cons c' cs' =>
        rw [List.takeWhile_cons, List.takeWhile_cons] at hrun
        by_cases hcc : isCc c = true
        · rw [if_pos hcc] at hrun
          have hcc' : isCc c' = true := by
            by_contra hcon
            rw [if_neg hcon] at hrun
            simp at hrun
          rw [if_pos hcc'] at hrun
          have hceq : c = c' := by
            injection hrun
          have hruns : cs.takeWhile isCc = cs'.takeWhile isCc := by
            injection hrun with _ h2
          subst hceq
          by_cases hce : ciEq c k = true
          · rw [tryKw_cons hce, tryKw_cons hce]
            exact ih hks hruns
          · rw [Bool.not_eq_true] at hce
            unfold tryKw
            simp [ciPref, hce]
        · rw [Bool.not_eq_true] at hcc
          rw [if_neg (by simp [hcc])] at hrun
          have hcc' : isCc c' = false := by
            by_contra hcon
            rw [Bool.not_eq_false] at hcon
            rw [if_pos hcon] at hrun
            simp at hrun
          have hce : ciEq c k = false := by
            by_contra hcon
            rw [Bool.not_eq_false] at hcon
            rw [ciEq_isCc hcon hk] at hcc
            simp at hcc
          have hce' : ciEq c' k = false := by
            by_contra hcon
            rw [Bool.not_eq_false] at hcon
            rw [ciEq_isCc hcon hk] at hcc'
            simp at hcc'
          unfold tryKw
          simp [ciPref, hce, hce']

theorem stripStep_isSome_run {r r' : Str}
    (hrun : r.takeWhile isCc = r'.takeWhile isCc) :
    (stripStep r).isSome = (stripStep r').isSome := by
  have : ∀ kws : List Str, (∀ kw ∈ kws, ∀ k ∈ kw, isCc k = true) →
      (stripStep.go r kws).isSome = (stripStep.go r' kws).isSome := by
    intro kws hg
    induction kws with
    | nil => rfl
    | cons kw kws ih =>
      have h1 := tryKw_isSome_run (hg kw (by simp)) hrun
      simp only [stripStep.go]
      cases hr : tryKw kw r with
      | some t =>
        rw [hr] at h1
        cases hr' : tryKw kw r' with
        | some t' => rfl
        | none => rw [hr'] at h1; simp at h1
      | none =>
        rw [hr] at h1
        cases hr' : tryKw kw r' with
        | some t' => rw [hr'] at h1; simp at h1
        | none => exact ih (fun x hx => hg x (List.mem_cons_of_mem _ hx))
  exact this hashKws (by decide)

theorem stripHashedClasses_run (l : Str) :
    (stripHashedClasses l).takeWhile isCc = l.takeWhile isCc := by
  induction l using stripHashedClasses.induct with
  | case1 => rw [stripHashedClasses_nil]
  | case2 rest t hs ih =>
    rw [stripHashedClasses_dot_some hs, ih, stripStep_run_nil hs,
      List.takeWhile_cons]
    simp [show isCc '.' = false by decide]
  | case3 rest hs ih =>
    rw [stripHashedClasses_dot_none hs, List.takeWhile_cons, List.takeWhile_cons]
    simp [show isCc '.' = false by decide]
  | case4 c rest hc ih =>
    rw [stripHashedClasses_cons_ne hc, List.takeWhile_cons, List.takeWhile_cons]
    by_cases h : isCc c = true
    · simp [h, ih]
    · rw [Bool.not_eq_true] at h
      simp [h]

/-- `stripHashedClasses` is idempotent: a second pass removes nothing. -/
theorem stripHashedClasses_idem (l : Str) :
    stripHashedClasses (stripHashedClasses l) = stripHashedClasses l := by
  induction l using stripHashedClasses.induct with
  | case1 => rw [stripHashedClasses_nil, stripHashedClasses_nil]
  | case2 rest t hs ih =>
    rw [stripHashedClasses_dot_some hs]
    exact ih
  | case3 rest hs ih =>
    rw [stripHashedClasses_dot_none hs]
    have hnone : stripStep (stripHashedClasses rest) = none := by
      have h1 := stripStep_isSome_run (stripHashedClasses_run rest)
      rw [hs] at h1
      simp only [Option.isSome_none] at h1
      exact Option.not_isSome_iff_eq_none.mp (by simp [h1])
    rw [stripHashedClasses_dot_none hnone, ih]
  | case4 c rest hc ih =>
    rw [stripHashedClasses_cons_ne hc, stripHashedClasses_cons_ne hc, ih]

/-! ## `learn.ts`: buckets and their normalization -/

/-- Values of the loosely-typed field-rule map (`Record<string, any>`); the
payload is opaque to every operation modelled here, so it is represented by a
string. -/
abbrev Fields := List (Str × Str)

/-- Object spread `{...a, ...b}`: keys of `a` first (values overridden by
`b` where shared), then the new keys of `b`. -/
def mergeFields (a b : Fields) : Fields :=
  (a.map fun p => match b.find? (fun q => q.1 = p.1) with
    | some q => (p.1, q.2)
    | none => p) ++
  b.filter (fun q => !(a.any (fun p => p.1 = q.1)))

/-- `toArray` from `learn.ts`: accept `undefined`, a comma-separated string,
or an array. -/
def toArray : Option (Sum Str (List Str)) → List Str
  | none => []
  | some (.inl s) => ((splitComma s).map trimJS).filter (fun x => x ≠ [])
  | some (.inr l) => l

/-- The `cleaned` intermediate of `normalizeList`. -/
def cleanedList (x : Option (Sum Str (List Str))) : List Str :=
  dedupF (((toArray x).map stripHashedClasses).filter (fun s => s ≠ []))

/-- `normalizeList` from `learn.ts`: strip hashed classes, drop empties,
first-occurrence dedup; empty result becomes `undefined`. -/
def normalizeList (x : Option (Sum Str (List Str))) : Option (List Str) :=
  if cleanedList x = [] then none else some (cleanedList x)

/-- The per-bucket caps (`CAPS` in `learn.ts`). -/
def CAPS_list : Nat := 20
def CAPS_anchors : Nat := 40
def CAPS_containers : Nat := 40
def CAPS_broad : Nat := 40
def CAPS_candidates : Nat := 80

/-- `cap` from `learn.ts`: `arr ? arr.slice(0, n) : arr`. -/
def capL (arr : Option (List Str)) (n : Nat) : Option (List Str) :=
  arr.map (fun l => l.take n)

/-- The `Buckets` record of `learn.ts` (each bucket declared `string[]`). -/
structure Buckets where
  list : Option (List Str) := none
  anchors : Option (List Str) := none
  containers : Option (List Str) := none
  broad : Option (List Str) := none
  candidates : Option (List Str) := none
  fields : Option Fields := none
deriving DecidableEq, Repr, Inhabited

/-- The `norm` helper inside `normalizeBuckets` applied to an array-typed
bucket (`normalizeList` already yields `undefined` for an empty result, so the
extra length check of `norm` is the identity). -/
def normB (o : Option (List Str)) : Option (List Str) :=
  normalizeList (o.map Sum.inr)

/-- `normalizeBuckets` from `learn.ts`. -/
def normalizeBuckets (b : Buckets) : Buckets where
  fields := some (b.fields.getD [])
  list := capL (normB b.list) CAPS_list
  anchors := capL (normB b.anchors) CAPS_anchors
  containers := capL (normB b.containers) CAPS_containers
  broad := capL (normB b.broad) CAPS_broad
  candidates := capL (normB b.candidates) CAPS_candidates

theorem map_strip_fixed {l : List Str} (h : ∀ x ∈ l, stripHashedClasses x = x) :
    l.map stripHashedClasses = l := by
  induction l with
  | nil => rfl
  | cons a as ih =>
    simp only [List.map_cons, h a (by simp),
      ih (fun x hx => h x (List.mem_cons_of_mem _ hx))]

theorem normB_props {o : Option (List Str)} {l : List Str} (h : normB o = some l) :
    l.Nodup ∧ l ≠ [] ∧ ∀ x ∈ l, stripHashedClasses x = x ∧ x ≠ [] := by
  unfold normB normalizeList at h
  split at h
  · cases h
  · next hne =>
    cases h
    refine ⟨dedupF_nodup _, hne, fun x hx => ?_⟩
    have hx' := dedupF_subset hx
    have hmem := List.mem_of_mem_filter hx'
    have hne' := List.of_mem_filter hx'
    simp only [ne_eq, decide_eq_true_eq] at hne'
    rcases List.mem_map.mp hmem with ⟨y, _, rfl⟩
    exact ⟨stripHashedClasses_idem y, hne'⟩

theorem cleanedList_fixed {l : List Str} (hnd : l.Nodup)
    (hel : ∀ x ∈ l, stripHashedClasses x = x ∧ x ≠ []) :
    cleanedList (some (Sum.inr l)) = l := by
  unfold cleanedList
  have h1 : toArray (some (Sum.inr l)) = l := rfl
  rw [h1, map_strip_fixed (fun x hx => (hel x hx).1)]
  have hfil : l.filter (fun s => s ≠ []) = l :=
    List.filter_eq_self.mpr (fun x hx => by simpa using (hel x hx).2)
  rw [hfil, dedupF_eq_self hnd]

theorem normB_fixed {l : List Str} (hnd : l.Nodup) (hne : l ≠ [])
    (hel : ∀ x ∈ l, stripHashedClasses x = x ∧ x ≠ []) :
    normB (some l) = some l := by
  unfold normB normalizeList
  simp only [Option.map_some']
  rw [cleanedList_fixed hnd hel]
  simp [hne]

theorem normCap_idem (o : Option (List Str)) (n : Nat) (hn : 1 ≤ n) :
    capL (normB (capL (normB o) n)) n = capL (normB o) n := by
  cases ho : normB o with
  | none =>
    have hnone : normB none = none := by
      unfold normB normalizeList
      simp [cleanedList, toArray, dedupF, dedupGo]
    simp only [capL, Option.map_none', hnone]
  | some l =>
    obtain ⟨hnd, hne, hel⟩ := normB_props ho
    have htake_props : ∀ x ∈ l.take n, stripHashedClasses x = x ∧ x ≠ [] :=
      fun x hx => hel x (List.mem_of_mem_take hx)
    have htake_nd : (l.take n).Nodup := hnd.sublist (List.take_sublist n l)
    have htake_ne : l.take n ≠ [] := by
      cases l with
      | nil => exact absurd rfl hne
      | cons a as =>
        cases n with
        | zero => omega
        | succ m => simp
    simp only [capL, Option.map_some']
    rw [normB_fixed htake_nd htake_ne htake_props]
    simp [List.take_take]

/-! ## `learn.ts`: profiles, matching, upsert

External collaborators are oracle parameters: `rtest` models the platform
`RegExp.test`, the template hash of an HTML document is passed as the string
`makeTemplateHash` would return, `new URL(url)` is passed as its parsed parts,
and `UpsertEnv` carries the clock / random-id / miner results of one call.
-/

/-- The `Match` record (`match` is reserved in Lean, field named `mtch`). -/
structure MatchPred where
  pathRegex : Option Str := none
  queryKeys : Option (List Str) := none
  templateHash : Option Str := none
deriving DecidableEq, Repr, Inhabited

structure Metrics where
  runs : Nat
  avgItems : Int
  lastSeen : Str
deriving DecidableEq, Repr, Inhabited

structure Profile where
  id : Str
  mtch : MatchPred
  buckets : Buckets
  metrics : Option Metrics := none
deriving DecidableEq, Repr, Inhabited

structure HostRecord where
  profiles : List Profile
deriving DecidableEq, Repr, Inhabited

/-- The parts of `new URL(url)` that `scoreProfile` reads. -/
structure UrlParts where
  pathname : Str
  queryKeys : List Str
deriving DecidableEq, Repr, Inhabited

/-- `normalizeHost`: strip an anchored `https?://`, `www.`, and one generic
two-letter subdomain. -/
def dropExact : Str → Str → Option Str
  | [], l => some l
  | p :: ps, c :: cs => if c = p then dropExact ps cs else none
  | _ :: _, [] => none

def stripScheme (h : Str) : Str :=
  match dropExact ['h', 't', 't', 'p'] h with
  | some r =>
    match r with
    | 's' :: r' =>
      match dropExact [':', '/', '/'] r' with
      | some t => t
      | none =>
        match dropExact [':', '/', '/'] r with
        | some t => t
        | none => h
    | _ =>
      match dropExact [':', '/', '/'] r with
      | some t => t
      | none => h
  | none => h

def stripWww (h : Str) : Str :=
  match dropExact ['w', 'w', 'w', '.'] h with
  | some t => t
  | none => h

def isAsciiLetter (c : Char) : Bool :=
  (65 ≤ c.toNat && c.toNat ≤ 90) || (97 ≤ c.toNat && c.toNat ≤ 122)

def stripCcSub (h : Str) : Str :=
  match h with
  | a :: b :: '.' :: rest =>
    if isAsciiLetter a && isAsciiLetter b then rest else h
  | _ => h

def normalizeHost (h : Str) : Str := stripCcSub (stripWww (stripScheme h))

/-- `scoreProfile` from `learn.ts`; `rtest re s` models
`new RegExp(re).test(s)` and `hash` is `makeTemplateHash(html)`. -/
def scoreProfile (rtest : Str → Str → Bool) (u : UrlParts) (hash : Str)
    (p : Profile) : Int :=
  (match p.mtch.pathRegex with
   | some re => if re ≠ [] ∧ rtest re u.pathname then 2 else 0
   | none => 0) +
  (match p.mtch.queryKeys with
   | some ks =>
     if ks.length > 0 then ((ks.filter (fun k => u.queryKeys.contains k)).length : Int)
     else 0
   | none => 0) +
  (match p.mtch.templateHash with
   | some th => if th ≠ [] ∧ th = hash then 3 else 0
   | none => 0)

/-- The best-profile scan of `getBestProfile` (`sc > bestScore` keeps the
first-seen profile on ties; `bestScore` starts at `-1`). -/
def bestLoop (f : Profile → Int) : List Profile → Option Profile → Int →
    Option Profile × Int
  | [], best, bs => (best, bs)
  | p :: ps, best, bs =>
    if f p > bs then bestLoop f ps (some p) (f p) else bestLoop f ps best bs

structure BestResult where
  profile : Option Profile
  buckets : Buckets
  score : Int
deriving DecidableEq, Repr, Inhabited

/-- `getBestProfile` applied to the record stored for a host (`none` when the
host key is absent from the store). -/
def getBestProfileRec (rtest : Str → Str → Bool) (u : UrlParts) (hash : Str) :
    Option HostRecord → BestResult
  | none => ⟨none, {}, 0⟩
  | some r =>
    if r.profiles = [] then ⟨none, {}, 0⟩
    else
      let res := bestLoop (scoreProfile rtest u hash) r.profiles none (-1)
      ⟨res.1,
       match res.1 with
       | some p => normalizeBuckets p.buckets
       | none => {},
       res.2⟩

/-! ### Upsert -/

/-- `UpsertProfileInput` from `learn.ts`. -/
structure UpsertMetricsIn where
  items : Option Int := none
deriving DecidableEq, Repr, Inhabited

structure UpsertProfileInput where
  id : Option Str := none
  mtch : MatchPred := {}
  buckets : Buckets
  metrics : Option UpsertMetricsIn := none
deriving DecidableEq, Repr, Inhabited

/-- Oracle data consumed by one `upsertProfile` call: truthiness of the
`html` argument, the miner output `mineCandidatesFromHtml(html)`, the
template hash of `html`, the clock, and the generated fresh id. -/
structure UpsertEnv where
  htmlPresent : Bool
  minedRaw : Buckets
  tplHash : Str
  now : Str
  freshId : Str
deriving DecidableEq, Repr, Inhabited

def MAX_PROFILES : Nat := 8

/-- `incoming.metrics?.items ?? 0`. -/
def itemsOf (inc : UpsertProfileInput) : Int :=
  match inc.metrics with
  | some m => m.items.getD 0
  | none => 0

/-- The inferred match predicate used when creating a profile. -/
def inferredMatch (env : UpsertEnv) (inc : UpsertProfileInput) : MatchPred :=
  { inc.mtch with
    templateHash :=
      match inc.mtch.templateHash with
      | some t =>
        if t ≠ [] then some t
        else if env.htmlPresent then some env.tplHash else none
      | none => if env.htmlPresent then some env.tplHash else none }

/-- `incoming.id && rec.profiles.find(x => x.id === incoming.id)`. -/
def findById (inc : UpsertProfileInput) (ps : List Profile) : Option Profile :=
  match inc.id with
  | some i => if i ≠ [] then ps.find? (fun x => x.id = i) else none
  | none => none

/-- The freshly created profile (before the merge step runs on it). -/
def mkFresh (env : UpsertEnv) (inc : UpsertProfileInput) : Profile where
  id :=
    match inc.id with
    | some i => if i ≠ [] then i else env.freshId
    | none => env.freshId
  mtch := inferredMatch env inc
  buckets := {}
  metrics := some { runs := 0, avgItems := 0, lastSeen := env.now }

/-- `a.metrics?.lastSeen || ""`, the LRU sort key. -/
def lastSeenKey (p : Profile) : Str := (p.metrics.map Metrics.lastSeen).getD []

/-- The comparator ordering used by the LRU trim (`localeCompare` on ISO
timestamps, i.e. lexicographic). -/
def lsLE (a b : Profile) : Prop := lastSeenKey a ≤ lastSeenKey b

instance : DecidableRel lsLE := fun a b => by
  unfold lsLE; infer_instance

instance : IsTotal Profile lsLE := ⟨fun a b => le_total _ _⟩

instance : IsTrans Profile lsLE := ⟨fun _ _ _ => le_trans⟩

/-- The stable `rec.profiles.sort(... localeCompare ...)`. -/
def sortLS (l : List Profile) : List Profile := l.insertionSort lsLE

/-- The `merged` intermediate of `mergeUniq`. -/
def mergeUniqRaw (a b : Option (List Str)) : List Str :=
  (dedupF (a.getD [] ++ b.getD [])).filter (fun s => s ≠ [])

/-- `mergeUniq` from `upsertProfile`. -/
def mergeUniq (a b : Option (List Str)) (capSize : Nat) : Option (List Str) :=
  if mergeUniqRaw a b = [] then none
  else some ((mergeUniqRaw a b).take capSize)

/-- Step 1–2 of `upsertProfile`: union the incoming buckets with the
auto-mined hints (before normalization). -/
def mergedIncoming (env : UpsertEnv) (inc : UpsertProfileInput) : Buckets :=
  let mined := if env.htmlPresent then normalizeBuckets env.minedRaw else {}
  { fields := inc.buckets.fields
    list := some (inc.buckets.list.getD [] ++ mined.list.getD [])
    anchors := some (inc.buckets.anchors.getD [] ++ mined.anchors.getD [])
    containers := some (inc.buckets.containers.getD [] ++ mined.containers.getD [])
    broad := some (inc.buckets.broad.getD [] ++ mined.broad.getD [])
    candidates := some (inc.buckets.candidates.getD [] ++ mined.candidates.getD []) }

/-- The `p.buckets = {...}` assignment of `upsertProfile` (`nb` and `ib` are
the normalized previous and incoming buckets; `list` obeys no-degrade). -/
def mergeBuckets (nb ib : Buckets) (items : Int) : Buckets where
  fields := some (mergeFields (nb.fields.getD []) (ib.fields.getD []))
  list := if items > 0 then mergeUniq nb.list ib.list CAPS_list else nb.list
  anchors := mergeUniq nb.anchors ib.anchors CAPS_anchors
  containers := mergeUniq nb.containers ib.containers CAPS_containers
  broad := mergeUniq nb.broad ib.broad CAPS_broad
  candidates := mergeUniq nb.candidates ib.candidates CAPS_candidates

/-- `Math.round(num / den)` for `den > 0` (round half towards `+∞`). -/
def jsRoundDiv (num den : Int) : Int := Int.fdiv (2 * num + den) (2 * den)

/-- The metrics update of `upsertProfile`. -/
def updatedMetrics (env : UpsertEnv) (p : Profile) (items : Int) : Metrics :=
  let runs := ((p.metrics.map Metrics.runs).getD 0) + 1
  let prevAvg := (p.metrics.map Metrics.avgItems).getD 0
  { runs := runs
    avgItems :=
      if (runs : Int) > 0 then jsRoundDiv (prevAvg * ((runs : Int) - 1) + items) runs
      else 0
    lastSeen := env.now }

/-- In-place mutation of the first array element satisfying `pred`. -/
def replaceFirst (pred : Profile → Bool) (x : Profile) : List Profile → List Profile
  | [] => []
  | y :: l => if pred y then x :: l else y :: replaceFirst pred x l

/-- The full merge applied to the resolved profile `p`. -/
def mergeInto (env : UpsertEnv) (inc : UpsertProfileInput) (p : Profile) : Profile :=
  let items := itemsOf inc
  let ib := normalizeBuckets (mergedIncoming env inc)
  let nb := normalizeBuckets p.buckets
  { p with
    buckets := mergeBuckets nb ib items
    metrics := some (updatedMetrics env p items) }

/-- `upsertProfile` acting on one host record.  The source mutates
`learnedByHost[key]` and returns `void`; the pair additionally exposes the
profile object that the call mutated (or created), which is the observable
the claims speak about. -/
def upsertRec (env : UpsertEnv) (inc : UpsertProfileInput) (rec : HostRecord) :
    HostRecord × Profile :=
  match findById inc rec.profiles with
  | some p =>
    let p' := mergeInto env inc p
    (⟨replaceFirst (fun q => q.id = p.id) p' rec.profiles⟩, p')
  | none =>
    let p0 := mkFresh env inc
    let pruned :=
      if rec.profiles.length ≥ MAX_PROFILES then (sortLS rec.profiles).drop 1
      else rec.profiles
    let p' := mergeInto env inc p0
    (⟨pruned ++ [p']⟩, p')

/-- The persisted store `learnedByHost`, keyed by normalized host. -/
abbrev Store := List (Str × HostRecord)

def storeFind (s : Store) (k : Str) : Option HostRecord :=
  (s.find? (fun e => e.1 = k)).map Prod.snd

def storeSet (s : Store) (k : Str) (r : HostRecord) : Store :=
  match s with
  | [] => [(k, r)]
  | e :: rest => if e.1 = k then (k, r) :: rest else e :: storeSet rest k r

/-- `upsertProfile(host, incoming, html)` at store level. -/
def upsertProfile (env : UpsertEnv) (host : Str) (inc : UpsertProfileInput)
    (s : Store) : Store × Profile :=
  let key := normalizeHost host
  let rec0 := (storeFind s key).getD ⟨[]⟩
  let res := upsertRec env inc rec0
  (storeSet s key res.1, res.2)

/-- `getBestProfile(host, url, html)` at store level. -/
def getBestProfile (rtest : Str → Str → Bool) (host : Str) (u : UrlParts)
    (hash : Str) (s : Store) : BestResult :=
  getBestProfileRec rtest u hash (storeFind s (normalizeHost host))

/-! ### `loadLearnedSelectors`

The filesystem and `JSON.parse` are oracle parameters.  The body of
`loadLearnedSelectors` calls `JSON.parse(raw)` with *no* `try`/`catch`, so a
parse failure is modelled as the propagated `.error` of the whole call. -/

/-- A legacy persisted host record (`{list, anchors, ..., fields}` without a
`profiles` key); each bucket may be a string or an array. -/
structure LegacyRecord where
  list : Option (Sum Str (List Str)) := none
  anchors : Option (Sum Str (List Str)) := none
  containers : Option (Sum Str (List Str)) := none
  broad : Option (Sum Str (List Str)) := none
  candidates : Option (Sum Str (List Str)) := none
  fields : Option Fields := none
deriving DecidableEq, Repr, Inhabited

/-- The JSON value `JSON.parse` yields for the persisted store on success. -/
abbrev ParsedStore := List (Str × Sum LegacyRecord HostRecord)

/-- The migration loop body of `loadLearnedSelectors`. -/
def migrateRecord (now : Str) : Sum LegacyRecord HostRecord → HostRecord
  | .inr r => r
  | .inl rec =>
    ⟨[{ id := ['d', 'e', 'f', 'a', 'u', 'l', 't']
        mtch := {}
        buckets :=
          { list := normalizeList rec.list
            anchors := normalizeList rec.anchors
            containers := normalizeList rec.containers
            broad := normalizeList rec.broad
            candidates := normalizeList rec.candidates
            fields := some (rec.fields.getD []) }
        metrics := some { runs := 0, avgItems := 0, lastSeen := now } }]⟩

/-- `loadLearnedSelectors`: `fileExists` models `existsSync(LEARNED_PATH)`,
`raw` the file contents, `parse` the platform `JSON.parse` (`.error` = a
thrown `SyntaxError`), `now` the clock.  The `JSON.parse` call is not
guarded, so its exception becomes the result of the whole call. -/
def loadLearnedSelectors (fileExists : Bool) (raw : Str) (now : Str)
    (parse : Str → Except Str ParsedStore) : Except Str Store :=
  if !fileExists then .ok []
  else if raw = [] then .ok []
  else (parse raw).map (fun d => d.map (fun e => (e.1, migrateRecord now e.2)))

/-! ## Claim C9 -/

/-- C9: `normalizeBuckets` is idempotent — for every buckets value `b`,
`normalizeBuckets (normalizeBuckets b) = normalizeBuckets b`, where
normalization strips hashed class fragments, deduplicates each bucket
and caps it at its declared size (list 20, anchors/containers/broad 40,
candidates 80). -/
theorem C9_normalizeBuckets_idempotent (b : Buckets) :
    normalizeBuckets (normalizeBuckets b) = normalizeBuckets b := by
  unfold normalizeBuckets
  simp only [Buckets.mk.injEq]
  refine ⟨?_, ?_, ?_, ?_, ?_, by simp⟩
  · exact normCap_idem b.list CAPS_list (by norm_num [CAPS_list])
  · exact normCap_idem b.anchors CAPS_anchors (by norm_num [CAPS_anchors])
  · exact normCap_idem b.containers CAPS_containers (by norm_num [CAPS_containers])
  · exact normCap_idem b.broad CAPS_broad (by norm_num [CAPS_broad])
  · exact normCap_idem b.candidates CAPS_candidates (by norm_num [CAPS_candidates])

/-! ## Claim C3 -/

/-- C3 (the code-level fact): if the persisted file exists and holds
non-empty unparsable text, `loadLearnedSelectors` propagates the `JSON.parse`
exception instead of resetting the store to empty — the claim (and §7 of the
spec) say the load should recover to an empty store with a warning. -/
theorem C3_load_corrupt_store_propagates (raw e now : Str)
    (parse : Str → Except Str ParsedStore)
    (hraw : raw ≠ []) (hparse : parse raw = .error e) :
    loadLearnedSelectors true raw now parse = .error e := by
  unfold loadLearnedSelectors
  simp [hraw, hparse, Except.map]

/-- Witness for C3: the file content `{` with `JSON.parse` throwing. -/
theorem C3_load_corrupt_store_propagates_witness :
    (['\x7b'] : Str) ≠ [] ∧
    loadLearnedSelectors true ['\x7b'] []
      (fun _ => .error ['b', 'a', 'd']) = .error ['b', 'a', 'd'] :=
  ⟨by decide,
   C3_load_corrupt_store_propagates ['\x7b'] ['b', 'a', 'd'] []
     (fun _ => .error ['b', 'a', 'd']) (by decide) rfl⟩

/-! ## Claim C6 -/

theorem scoreProfile_nonneg (rtest : Str → Str → Bool) (u : UrlParts)
    (hash : Str) (p : Profile) : 0 ≤ scoreProfile rtest u hash p := by
  unfold scoreProfile
  have h1 : (0 : Int) ≤ (match p.mtch.pathRegex with
      | some re => if re ≠ [] ∧ rtest re u.pathname then 2 else 0
      | none => 0) := by
    split
    · split <;> omega
    · omega
  have h2 : (0 : Int) ≤ (match p.mtch.queryKeys with
      | some ks =>
        if ks.length > 0 then ((ks.filter (fun k => u.queryKeys.contains k)).length : Int)
        else 0
      | none => 0) := by
    split
    · split
      · positivity
      · omega
    · omega
  have h3 : (0 : Int) ≤ (match p.mtch.templateHash with
      | some th => if th ≠ [] ∧ th = hash then 3 else 0
      | none => 0) := by
    split
    · split <;> omega
    · omega
  omega

theorem bestLoop_absorb (f : Profile → Int) (ps : List Profile) :
    ∀ (best : Option Profile) (bs : Int), (∀ p ∈ ps, f p ≤ bs) →
    bestLoop f ps best bs = (best, bs) := by
  induction ps with
  | nil => intro best bs _; rfl
  | cons p ps ih =>
    intro best bs hall
    rw [bestLoop]
    rw [if_neg (by have := hall p (by simp); omega)]
    exact ih best bs (fun q hq => hall q (List.mem_cons_of_mem _ hq))

theorem bestLoop_found (f : Profile → Int) (ps : List Profile) :
    ∀ (best : Option Profile) (bs : Int), (∃ p ∈ ps, bs < f p) →
    ∃ i : Nat, i < ps.length ∧
      bestLoop f ps best bs = (some (ps.getD i default), f (ps.getD i default)) ∧
      bs < f (ps.getD i default) ∧
      (∀ j : Nat, j < ps.length → f (ps.getD j default) ≤ f (ps.getD i default)) ∧
      (∀ j : Nat, j < i → f (ps.getD j default) < f (ps.getD i default)) := by
  induction ps with
  | nil => intro best bs h; simp at h
  | cons p ps ih =>
    intro best bs hex
    rw [bestLoop]
    by_cases hp : bs < f p
    · rw [if_pos (by omega)]
      by_cases hrest : ∃ q ∈ ps, f p < f q
      · obtain ⟨i', hilen, heq, hlt, hall, hstrict⟩ := ih (some p) (f p) hrest
        refine ⟨i' + 1, by simpa using hilen, ?_, ?_, ?_, ?_⟩
        · rw [List.getD_cons_succ]; exact heq
        · rw [List.getD_cons_succ]; omega
        · intro j hj
          rw [List.getD_cons_succ]
          cases j with
          | zero => rw [List.getD_cons_zero]; omega
          | succ j' => rw [List.getD_cons_succ]; exact hall j' (by simpa using hj)
        · intro j hj
          rw [List.getD_cons_succ]
          cases j with
          | zero => rw [List.getD_cons_zero]; exact hlt
          | succ j' => rw [List.getD_cons_succ]; exact hstrict j' (by omega)
      · push_neg at hrest
        rw [bestLoop_absorb f ps (some p) (f p) hrest]
        refine ⟨0, by simp, by rw [List.getD_cons_zero], ?_, ?_, ?_⟩
        · rw [List.getD_cons_zero]; exact hp
        · intro j hj
          rw [List.getD_cons_zero]
          cases j with
          | zero => rw [List.getD_cons_zero]
          | succ j' =>
            rw [List.getD_cons_succ]
            have hj' : j' < ps.length := by simpa using hj
            refine hrest _ ?_
            rw [List.getD_eq_getElem _ _ hj']
            exact List.getElem_mem hj'
        · intro j hj; omega
    · rw [if_neg (by omega)]
      have hex' : ∃ q ∈ ps, bs < f q := by
        rcases hex with ⟨q, hq, hlt⟩
        rcases List.mem_cons.mp hq with rfl | hq'
        · omega
        · exact ⟨q, hq', hlt⟩
      obtain ⟨i', hilen, heq, hlt, hall, hstrict⟩ := ih best bs hex'
      refine ⟨i' + 1, by simpa using hilen, ?_, ?_, ?_, ?_⟩
      · rw [List.getD_cons_succ]; exact heq
      · rw [List.getD_cons_succ]; exact hlt
      · intro j hj
        rw [List.getD_cons_succ]
        cases j with
        | zero => rw [List.getD_cons_zero]; omega
        | succ j' => rw [List.getD_cons_succ]; exact hall j' (by simpa using hj)
      · intro j hj
        rw [List.getD_cons_succ]
        cases j with
        | zero => rw [List.getD_cons_zero]; omega
        | succ j' => rw [List.getD_cons_succ]; exact hstrict j' (by omega)

/-- C6: `getBestProfile` scores every stored profile
(2 × pathRegex match + 1 per present queryKey + 3 × templateHash equality,
which is what `scoreProfile` computes), returns the top-scoring profile with
ties broken in favour of the first-seen one, together with that profile's
normalized buckets and the score; a host with no stored profiles yields
`(null, {}, 0)`. -/
theorem C6_getBestProfile_characterization (rtest : Str → Str → Bool)
    (u : UrlParts) (hash : Str) (r : HostRecord) (hne : r.profiles ≠ []) :
    (∃ i : Nat, i < r.profiles.length ∧
      getBestProfileRec rtest u hash (some r) =
        ⟨some (r.profiles.getD i default),
         normalizeBuckets (r.profiles.getD i default).buckets,
         scoreProfile rtest u hash (r.profiles.getD i default)⟩ ∧
      (∀ j : Nat, j < r.profiles.length →
        scoreProfile rtest u hash (r.profiles.getD j default) ≤
        scoreProfile rtest u hash (r.profiles.getD i default)) ∧
      (∀ j : Nat, j < i →
        scoreProfile rtest u hash (r.profiles.getD j default) <
        scoreProfile rtest u hash (r.profiles.getD i default))) ∧
    getBestProfileRec rtest u hash none = ⟨none, {}, 0⟩ ∧
    getBestProfileRec rtest u hash (some ⟨[]⟩) = ⟨none, {}, 0⟩ := by
  refine ⟨?_, rfl, rfl⟩
  have hex : ∃ p ∈ r.profiles, (-1 : Int) < scoreProfile rtest u hash p := by
    cases hps : r.profiles with
    | nil => exact absurd hps hne
    | cons p ps =>
      exact ⟨p, by simp, by have := scoreProfile_nonneg rtest u hash p; omega⟩
  obtain ⟨i, hilen, heq, _, hall, hstrict⟩ :=
    bestLoop_found (scoreProfile rtest u hash) r.profiles none (-1) hex
  refine ⟨i, hilen, ?_, hall, hstrict⟩
  simp only [getBestProfileRec]
  rw [if_neg hne]
  simp only [heq]

/-- Witness for C6: a two-profile host record (the second profile carries the
matching template hash); the theorem applies with its hypothesis discharged
by computation, and the no-stored-profiles conjunct is projected out. -/
theorem C6_getBestProfile_characterization_witness :
    (⟨[{ id := ['a'], mtch := {}, buckets := {}, metrics := none },
       { id := ['b'], mtch := { templateHash := some ['h'] }, buckets := {},
         metrics := none }]⟩ : HostRecord).profiles ≠ [] ∧
    getBestProfileRec (fun _ _ => false) ⟨[], []⟩ ['h'] none = ⟨none, {}, 0⟩ :=
  ⟨by decide,
   (C6_getBestProfile_characterization (fun _ _ => false) ⟨[], []⟩ ['h']
     ⟨[{ id := ['a'], mtch := {}, buckets := {}, metrics := none },
       { id := ['b'], mtch := { templateHash := some ['h'] }, buckets := {},
         metrics := none }]⟩ (by decide)).2.1⟩

/-! ## Claim C4 -/

/-- One `upsertProfile` call with its oracle data. -/
structure UpsertCall where
  env : UpsertEnv
  host : Str
  inc : UpsertProfileInput

/-- A sequence of `upsertProfile` calls applied to a store. -/
def applyOps (ops : List UpsertCall) (s : Store) : Store :=
  ops.foldl (fun st op => (upsertProfile op.env op.host op.inc st).1) s

theorem replaceFirst_length (pred : Profile → Bool) (x : Profile)
    (l : List Profile) : (replaceFirst pred x l).length = l.length := by
  induction l with
  | nil => rfl
  | cons y l ih =>
    rw [replaceFirst]
    split
    · simp
    · simp [ih]

theorem sortLS_perm (l : List Profile) : (sortLS l).Perm l :=
  List.perm_insertionSort lsLE l

theorem sortLS_length (l : List Profile) : (sortLS l).length = l.length :=
  (sortLS_perm l).length_eq

theorem upsertRec_found {env : UpsertEnv} {inc : UpsertProfileInput}
    {rec : HostRecord} {p : Profile} (hf : findById inc rec.profiles = some p) :
    upsertRec env inc rec =
      (⟨replaceFirst (fun q => q.id = p.id) (mergeInto env inc p) rec.profiles⟩,
       mergeInto env inc p) := by
  unfold upsertRec
  rw [hf]

theorem upsertRec_create {env : UpsertEnv} {inc : UpsertProfileInput}
    {rec : HostRecord} (hf : findById inc rec.profiles = none) :
    upsertRec env inc rec =
      (⟨(if rec.profiles.length ≥ MAX_PROFILES then (sortLS rec.profiles).drop 1
         else rec.profiles) ++ [mergeInto env inc (mkFresh env inc)]⟩,
       mergeInto env inc (mkFresh env inc)) := by
  unfold upsertRec
  rw [hf]

theorem upsertRec_length_le (env : UpsertEnv) (inc : UpsertProfileInput)
    (rec : HostRecord) (h : rec.profiles.length ≤ MAX_PROFILES) :
    (upsertRec env inc rec).1.profiles.length ≤ MAX_PROFILES := by
  cases hf : findById inc rec.profiles with
  | some p =>
    rw [upsertRec_found hf]
    show (replaceFirst (fun q => q.id = p.id) (mergeInto env inc p)
      rec.profiles).length ≤ MAX_PROFILES
    rw [replaceFirst_length]
    exact h
  | none =>
    rw [upsertRec_create hf]
    by_cases hge : rec.profiles.length ≥ MAX_PROFILES
    · rw [if_pos hge]
      show ((sortLS rec.profiles).drop 1 ++
        [mergeInto env inc (mkFresh env inc)]).length ≤ MAX_PROFILES
      have hlen := sortLS_length rec.profiles
      have hM : MAX_PROFILES = 8 := rfl
      simp only [List.length_append, List.length_drop, List.length_cons,
        List.length_nil, hlen]
      omega
    · rw [if_neg hge]
      show (rec.profiles ++
        [mergeInto env inc (mkFresh env inc)]).length ≤ MAX_PROFILES
      have hM : MAX_PROFILES = 8 := rfl
      simp only [List.length_append, List.length_cons, List.length_nil]
      omega

theorem storeFind_cons (e : Str × HostRecord) (s : Store) (k' : Str) :
    storeFind (e :: s) k' = if e.1 = k' then some e.2 else storeFind s k' := by
  simp only [storeFind, List.find?]
  by_cases h : e.1 = k'
  · rw [show decide (e.1 = k') = true by simp [h], if_pos h]
    rfl
  · rw [show decide (e.1 = k') = false by simp [h], if_neg h]

theorem storeFind_set (s : Store) (k k' : Str) (r : HostRecord) :
    storeFind (storeSet s k r) k' = if k' = k then some r else storeFind s k' := by
  induction s with
  | nil =>
    rw [show storeSet [] k r = [(k, r)] from rfl, storeFind_cons]
    by_cases h : k' = k
    · subst h; simp
    · rw [if_neg (show ¬((k, r).1 = k') from fun hk => h hk.symm), if_neg h]
  | cons e rest ih =>
    by_cases he : e.1 = k
    · rw [show storeSet (e :: rest) k r = (k, r) :: rest by
        rw [storeSet]; rw [if_pos he]]
      rw [storeFind_cons, storeFind_cons]
      by_cases h : k' = k
      · subst h; simp
      · rw [if_neg (show ¬((k, r).1 = k') from fun hk => h hk.symm), if_neg h,
          if_neg (show ¬(e.1 = k') from fun hk => h (by rw [← hk, he]))]
    · rw [show storeSet (e :: rest) k r = e :: storeSet rest k r by
        rw [storeSet]; rw [if_neg he]]
      rw [storeFind_cons, storeFind_cons]
      by_cases hek : e.1 = k'
      · rw [if_pos hek, if_pos hek,
          if_neg (show ¬(k' = k) from fun hk => he (by rw [hek, hk]))]
      · rw [if_neg hek, if_neg hek, ih]

/-- C4: (a) starting from the empty store, after any sequence of upsert
calls every host's profile collection has at most 8 profiles; (b) an upsert
that must create a new profile while 8 are already stored first evicts a
profile whose `metrics.lastSeen` is least (LRU), keeping the other 7 plus
the new profile. -/
theorem C4_profile_cap_and_LRU_eviction :
    (∀ (ops : List UpsertCall) (k : Str) (rec : HostRecord),
      storeFind (applyOps ops []) k = some rec →
      rec.profiles.length ≤ MAX_PROFILES) ∧
    (∀ (env : UpsertEnv) (inc : UpsertProfileInput) (rec : HostRecord),
      rec.profiles.length = MAX_PROFILES →
      findById inc rec.profiles = none →
      ∃ e rest p', sortLS rec.profiles = e :: rest ∧
        (∀ q ∈ rec.profiles, lastSeenKey e ≤ lastSeenKey q) ∧
        (upsertRec env inc rec).1.profiles = rest ++ [p'] ∧
        (upsertRec env inc rec).1.profiles.length = MAX_PROFILES) := by
  constructor
  · have hstep : ∀ (s : Store) (op : UpsertCall),
        (∀ k rec, storeFind s k = some rec → rec.profiles.length ≤ MAX_PROFILES) →
        (∀ k rec, storeFind (upsertProfile op.env op.host op.inc s).1 k = some rec →
          rec.profiles.length ≤ MAX_PROFILES) := by
      intro s op hinv k rec hfind
      unfold upsertProfile at hfind
      simp only at hfind
      rw [storeFind_set] at hfind
      split at hfind
      · cases hfind
        apply upsertRec_length_le
        cases hfind0 : storeFind s (normalizeHost op.host) with
        | none => simp [hfind0, MAX_PROFILES]
        | some rec0 => simpa [hfind0] using hinv _ _ hfind0
      · exact hinv k rec hfind
    have hall : ∀ (ops : List UpsertCall) (s : Store),
        (∀ k rec, storeFind s k = some rec → rec.profiles.length ≤ MAX_PROFILES) →
        (∀ k rec, storeFind (applyOps ops s) k = some rec →
          rec.profiles.length ≤ MAX_PROFILES) := by
      intro ops
      induction ops with
      | nil => intro s hinv; exact hinv
      | cons op ops ih =>
        intro s hinv
        exact ih _ (hstep s op hinv)
    intro ops k rec hfind
    refine hall ops [] ?_ k rec hfind
    intro k' rec' hf
    simp [storeFind] at hf
  · intro env inc rec hlen hmiss
    have hslen : (sortLS rec.profiles).length = MAX_PROFILES := by
      rw [sortLS_length, hlen]
    cases hs : sortLS rec.profiles with
    | nil => rw [hs] at hslen; simp [MAX_PROFILES] at hslen
    | cons e rest =>
      refine ⟨e, rest, mergeInto env inc (mkFresh env inc), rfl, ?_, ?_, ?_⟩
      · intro q hq
        have hsorted : List.Sorted lsLE (sortLS rec.profiles) :=
          List.sorted_insertionSort lsLE rec.profiles
        rw [hs] at hsorted
        have hq' : q ∈ sortLS rec.profiles := (sortLS_perm rec.profiles).mem_iff.mpr hq
        rw [hs] at hq'
        rcases List.mem_cons.mp hq' with rfl | hq''
        · exact le_refl _
        · exact List.rel_of_sorted_cons hsorted q hq''
      · rw [upsertRec_create hmiss]
        rw [if_pos (by omega), hs]
        rfl
      · rw [upsertRec_create hmiss]
        rw [if_pos (by omega), hs]
        show ((e :: rest).drop 1 ++
          [mergeInto env inc (mkFresh env inc)]).length = MAX_PROFILES
        have hrest : rest.length = MAX_PROFILES - 1 := by
          rw [hs] at hslen
          simp only [List.length_cons] at hslen
          omega
        have hM : MAX_PROFILES = 8 := rfl
        simp only [List.drop_succ_cons, List.drop_zero, List.length_append,
          List.length_cons, List.length_nil]
        omega

/-- A concrete full host record (8 profiles, increasing `lastSeen`). -/
def c4profile (c : Char) : Profile where
  id := [c]
  mtch := {}
  buckets := {}
  metrics := some { runs := 1, avgItems := 0, lastSeen := [c] }

def c4rec : HostRecord :=
  ⟨[c4profile '1', c4profile '2', c4profile '3', c4profile '4',
    c4profile '5', c4profile '6', c4profile '7', c4profile '8']⟩

def c4inc : UpsertProfileInput := { buckets := {} }

def c4env : UpsertEnv :=
  ⟨false, {}, [], ['9'], ['n', 'e', 'w']⟩

/-- Witness for C4: the eviction clause applied to a concrete full record,
with both hypotheses discharged by computation. -/
theorem C4_profile_cap_and_LRU_eviction_witness :
    c4rec.profiles.length = MAX_PROFILES ∧
    findById c4inc c4rec.profiles = none ∧
    (∃ e rest p', sortLS c4rec.profiles = e :: rest ∧
      (∀ q ∈ c4rec.profiles, lastSeenKey e ≤ lastSeenKey q) ∧
      (upsertRec c4env c4inc c4rec).1.profiles = rest ++ [p'] ∧
      (upsertRec c4env c4inc c4rec).1.profiles.length = MAX_PROFILES) :=
  ⟨by decide, by decide,
   C4_profile_cap_and_LRU_eviction.2 c4env c4inc c4rec (by decide) (by decide)⟩

/-! ## Claim C1 -/

/-- The profile object resolved (or created) by one `upsertProfile` call. -/
def upsertTarget (env : UpsertEnv) (inc : UpsertProfileInput)
    (rec : HostRecord) : Profile :=
  (findById inc rec.profiles).getD (mkFresh env inc)

theorem upsertRec_snd (env : UpsertEnv) (inc : UpsertProfileInput)
    (rec : HostRecord) :
    (upsertRec env inc rec).2 = mergeInto env inc (upsertTarget env inc rec) := by
  unfold upsertTarget
  cases hf : findById inc rec.profiles with
  | some p => rw [upsertRec_found hf]; rfl
  | none => rw [upsertRec_create hf]; rfl

theorem mergeUniq_some {a b : Option (List Str)} {n : Nat} {l : List Str}
    (hn : 1 ≤ n) (h : mergeUniq a b n = some l) :
    l.length ≤ n ∧ l.Nodup ∧ l ≠ [] ∧
    ∀ x ∈ l, (x ∈ a.getD [] ∨ x ∈ b.getD []) ∧ x ≠ [] := by
  unfold mergeUniq at h
  split at h
  · cases h
  · next hne =>
    cases h
    refine ⟨List.length_take_le n _, ?_, ?_, fun x hx => ?_⟩
    · exact ((dedupF_nodup _).filter _).sublist (List.take_sublist _ _)
    · cases hm : mergeUniqRaw a b with
      | nil => exact absurd hm hne
      | cons y ys =>
        cases n with
        | zero => omega
        | succ m => simp
    · have hx' := List.mem_of_mem_take hx
      have hxf := List.mem_of_mem_filter hx'
      have hxe := List.of_mem_filter hx'
      simp only [ne_eq, decide_eq_true_eq] at hxe
      have := dedupF_subset hxf
      exact ⟨List.mem_append.mp this, hxe⟩

theorem mergeUniq_fixed {a b : Option (List Str)} {n : Nat} {l : List Str}
    (hn : 1 ≤ n)
    (ha : ∀ x ∈ a.getD [], stripHashedClasses x = x)
    (hb : ∀ x ∈ b.getD [], stripHashedClasses x = x)
    (h : mergeUniq a b n = some l) :
    capL (normB (some l)) n = some l := by
  obtain ⟨hlen, hnd, hne, hmem⟩ := mergeUniq_some hn h
  have hfix : ∀ x ∈ l, stripHashedClasses x = x ∧ x ≠ [] := by
    intro x hx
    rcases hmem x hx with ⟨hor, hxe⟩
    rcases hor with hmem' | hmem'
    · exact ⟨ha x hmem', hxe⟩
    · exact ⟨hb x hmem', hxe⟩
  rw [normB_fixed hnd hne hfix]
  simp only [capL, Option.map_some']
  rw [List.take_of_length_le hlen]

/-- Capped normalized buckets have strip-fixed elements. -/
theorem capped_normB_fixed (o : Option (List Str)) (n : Nat) :
    ∀ x ∈ (capL (normB o) n).getD [], stripHashedClasses x = x := by
  intro x hx
  cases ho : normB o with
  | none => simp [capL, ho] at hx
  | some l0 =>
    rw [ho] at hx
    simp only [capL, Option.map_some', Option.getD_some] at hx
    exact (((normB_props ho).2.2) x (List.mem_of_mem_take hx)).1

/-- C1 (amended): with `items = 0` the upsert stores exactly the
*normalization* of the profile's previous `list` bucket — in particular it
never mixes in incoming or mined selectors, and it is literally unchanged
whenever the stored buckets are already normalized; with `items > 0` the new
`list` holds at most 20 deduplicated selectors all drawn from the normalized
previous list or the normalized incoming∪mined list; and every `list` an
upsert writes is itself a fixed point of normalize-and-cap. -/
theorem C1_noDegrade_amended (env : UpsertEnv) (inc : UpsertProfileInput)
    (rec : HostRecord) :
    (itemsOf inc = 0 →
      (upsertRec env inc rec).2.buckets.list =
        (normalizeBuckets (upsertTarget env inc rec).buckets).list ∧
      (normalizeBuckets (upsertTarget env inc rec).buckets =
          (upsertTarget env inc rec).buckets →
        (upsertRec env inc rec).2.buckets.list =
          (upsertTarget env inc rec).buckets.list)) ∧
    (0 < itemsOf inc →
      ∀ l, (upsertRec env inc rec).2.buckets.list = some l →
        l.length ≤ CAPS_list ∧ l.Nodup ∧
        ∀ x ∈ l,
          x ∈ (normalizeBuckets (upsertTarget env inc rec).buckets).list.getD [] ∨
          x ∈ (normalizeBuckets (mergedIncoming env inc)).list.getD []) ∧
    (∀ l, (upsertRec env inc rec).2.buckets.list = some l →
      capL (normB (some l)) CAPS_list = some l) := by
  have hb : (upsertRec env inc rec).2.buckets =
      mergeBuckets (normalizeBuckets (upsertTarget env inc rec).buckets)
        (normalizeBuckets (mergedIncoming env inc)) (itemsOf inc) := by
    rw [upsertRec_snd]
    rfl
  have hlist : (upsertRec env inc rec).2.buckets.list =
      (if itemsOf inc > 0 then
        mergeUniq (normalizeBuckets (upsertTarget env inc rec).buckets).list
          (normalizeBuckets (mergedIncoming env inc)).list CAPS_list
      else (normalizeBuckets (upsertTarget env inc rec).buckets).list) := by
    rw [hb]
    rfl
  refine ⟨?_, ?_, ?_⟩
  · intro h0
    rw [hlist, if_neg (by omega)]
    exact ⟨rfl, fun hfix => by rw [hfix]⟩
  · intro hpos l hl
    rw [hlist, if_pos (by omega)] at hl
    obtain ⟨hlen, hnd, _, hmem⟩ := mergeUniq_some (by norm_num [CAPS_list]) hl
    exact ⟨hlen, hnd, fun x hx => (hmem x hx).1⟩
  · intro l hl
    rw [hlist] at hl
    by_cases hpos : itemsOf inc > 0
    · rw [if_pos hpos] at hl
      refine mergeUniq_fixed (by norm_num [CAPS_list]) ?_ ?_ hl
      · exact capped_normB_fixed _ _
      · exact capped_normB_fixed _ _
    · rw [if_neg hpos] at hl
      have := normCap_idem (upsertTarget env inc rec).buckets.list CAPS_list
        (by norm_num [CAPS_list])
      have hl' : capL (normB (upsertTarget env inc rec).buckets.list) CAPS_list
          = some l := hl
      rw [hl'] at this
      exact this

/-- The concrete state for the C1 counterexample and witness: a stored
profile whose `list` bucket holds a duplicated selector. -/
def c1p : Profile where
  id := ['p']
  mtch := {}
  buckets := { list := some [['x'], ['x']] }
  metrics := some { runs := 1, avgItems := 0, lastSeen := ['t'] }

def c1rec : HostRecord := ⟨[c1p]⟩

def c1inc : UpsertProfileInput :=
  { id := some ['p'], buckets := {}, metrics := some { items := some 0 } }

def c1env : UpsertEnv := ⟨false, {}, [], ['u'], ['f']⟩

theorem c1_strip_x : stripHashedClasses ['x'] = ['x'] := by
  rw [stripHashedClasses_cons_ne (by decide), stripHashedClasses_nil]

theorem c1_eval :
    (upsertRec c1env c1inc c1rec).2.buckets.list = some [['x']] := by
  have hfind : findById c1inc c1rec.profiles = some c1p := by rfl
  rw [upsertRec_found hfind]
  show (mergeBuckets (normalizeBuckets c1p.buckets)
    (normalizeBuckets (mergedIncoming c1env c1inc)) (itemsOf c1inc)).list =
    some [['x']]
  have hitems : itemsOf c1inc = 0 := rfl
  show (if itemsOf c1inc > 0 then
      mergeUniq (normalizeBuckets c1p.buckets).list
        (normalizeBuckets (mergedIncoming c1env c1inc)).list CAPS_list
    else (normalizeBuckets c1p.buckets).list) = some [['x']]
  rw [hitems, if_neg (by omega)]
  show capL (normB (some [['x'], ['x']])) CAPS_list = some [['x']]
  have htoA : toArray (Option.map Sum.inr (some [['x'], ['x']])) = [['x'], ['x']] := rfl
  unfold normB normalizeList cleanedList
  rw [htoA]
  rw [show List.map stripHashedClasses [['x'], ['x']] = [['x'], ['x']] by
    simp [c1_strip_x]]
  decide

/-- C1 (counterexample to the claim as stated): an `items = 0` upsert on a
profile whose stored `list` is `["x", "x"]` rewrites the bucket to its
normalization `["x"]`, so the list bucket is *not* exactly the same after
the call as before it. -/
theorem C1_counterexample :
    itemsOf c1inc = 0 ∧
    c1p.buckets.list = some [['x'], ['x']] ∧
    (upsertRec c1env c1inc c1rec).2.buckets.list = some [['x']] ∧
    (upsertRec c1env c1inc c1rec).2.buckets.list ≠ c1p.buckets.list := by
  refine ⟨rfl, rfl, c1_eval, ?_⟩
  rw [c1_eval]
  decide

/-- Witness for C1 (amended): on the same concrete input, the theorem's
`items = 0` clause applies and yields exactly the normalized previous list. -/
theorem C1_noDegrade_amended_witness :
    itemsOf c1inc = 0 ∧
    (upsertRec c1env c1inc c1rec).2.buckets.list =
      (normalizeBuckets (upsertTarget c1env c1inc c1rec).buckets).list :=
  ⟨rfl, ((C1_noDegrade_amended c1env c1inc c1rec).1 rfl).1⟩

/-! ## A small backtracking regex engine

A matcher maps an input suffix to the list of possible remainders after a
match at its front, in the backtracking priority order of a JavaScript
regex engine (greedy quantifiers produce longer matches first, alternations
are tried left to right).  `splitFirst` then yields the leftmost match, as
`String.prototype.match` does. -/

/-- A matcher: candidate remainders in priority order. -/
abbrev M := Str → List Str

def mChar (p : Char → Bool) : M := fun l =>
  match l with
  | c :: r => if p c then [r] else []
  | [] => []

def mCh (c : Char) : M := mChar (fun d => d = c)

def mEps : M := fun l => [l]

/-- Sequencing (distributes the continuation over all candidates). -/
def mSeq (a b : M) : M := fun l => (a l).flatMap b

/-- Ordered alternation. -/
def mAltL (ms : List M) : M := fun l => ms.flatMap (fun m => m l)

/-- `x?` (greedy: with the symbol first). -/
def mOpt (a : M) : M := fun l => a l ++ [l]

/-- `[class]*` (greedy: longest run first). -/
def mStar (p : Char → Bool) : M := fun l =>
  let n := (l.takeWhile p).length
  (List.range (n + 1)).map (fun k => l.drop (n - k))

/-- `[class]{0,mx}` (greedy). -/
def mRepMax (p : Char → Bool) (mx : Nat) : M := fun l =>
  let n := min mx (l.takeWhile p).length
  (List.range (n + 1)).map (fun k => l.drop (n - k))

/-- Case-sensitive literal string. -/
def mStrX (pat : Str) : M := pat.foldr (fun c m => mSeq (mCh c) m) mEps

/-- Case-insensitive literal string (`pat` in lowercase ASCII). -/
def mStrCI (pat : Str) : M := pat.foldr (fun k m => mSeq (mChar (fun c => ciEq c k)) m) mEps

/-- Leftmost match: `(prefix, matched, rest)`. -/
def splitGo (m : M) : Str → Str → Option (Str × Str × Str)
  | acc, [] =>
    match (m []).head? with
    | some rest => some (acc.reverse, [], rest)
    | none => none
  | acc, c :: r =>
    match (m (c :: r)).head? with
    | some rest =>
      some (acc.reverse, (c :: r).take ((c :: r).length - rest.length), rest)
    | none => splitGo m (c :: acc) r

def splitFirst (m : M) (l : Str) : Option (Str × Str × Str) := splitGo m [] l

theorem splitGo_isSome_of_match {m : M} {l acc : Str}
    (h : (m l).head?.isSome) : (splitGo m acc l).isSome := by
  cases l with
  | nil =>
    rw [splitGo]
    cases hh : (m []).head? with
    | some rest => simp
    | none => rw [hh] at h; simp at h
  | cons c r =>
    rw [splitGo]
    cases hh : (m (c :: r)).head? with
    | some rest => simp
    | none => rw [hh] at h; simp at h

/-- `s.match(re)?.[0]`. -/
def findM (m : M) (l : Str) : Option Str := (splitFirst m l).map (fun t => t.2.1)

/-- `re.test(s)`. -/
def testM (m : M) (l : Str) : Bool := (splitFirst m l).isSome

/-- Anchored `s.replace(/^pat/, repl)` (first candidate = greedy match). -/
def replAnchored (m : M) (repl : Str) (s : Str) : Str :=
  match (m s).head? with
  | some r => repl ++ r
  | none => s

/-- Matcher accepting only the end of input (`$`). -/
def mEnd : M := fun l => if l = [] then [[]] else []

/-! ## `extract.ts` / `resolvers.ts`: price normalization -/

def sStar : M := mStar jsSpace

/-- `\s+`. -/
def sPlus : M := mSeq (mChar jsSpace) sStar

def isDigitComma (c : Char) : Bool := isDig c || c = ','

/-- `\d[\d,]*(?:\.\d{2})?` (the extract.ts number shape, `.` separator). -/
def numE : M :=
  mSeq (mChar isDig) (mSeq (mStar isDigitComma)
    (mOpt (mSeq (mCh '.') (mSeq (mChar isDig) (mChar isDig)))))

/-- `\d[\d,]*(?:[.,]\d{2})?` (the resolvers.ts number shape). -/
def numR : M :=
  mSeq (mChar isDig) (mSeq (mStar isDigitComma)
    (mOpt (mSeq (mChar (fun c => c = '.' || c = ',')) (mSeq (mChar isDig) (mChar isDig)))))

/-- `(?:C?A?\$|US\$|\$)`; `ci` selects the `i` flag (the `m4` range regexes
carry no `i` flag, so their letters are case-sensitive uppercase). -/
def symE (ci : Bool) : M :=
  let ch := fun (k ku : Char) => if ci then mChar (fun c => ciEq c k) else mCh ku
  mAltL
    [mSeq (mOpt (ch 'c' 'C')) (mSeq (mOpt (ch 'a' 'A')) (mCh '$')),
     mSeq (ch 'u' 'U') (mSeq (ch 's' 'S') (mCh '$')),
     mCh '$']

/-- The two extra currency alternatives of resolvers.ts `m1`: the source
file holds the mojibake three-char sequence U+0432 U+201A U+00AC (for `€`)
and the two-char sequence U+0412 U+0408 (for `£`).  They are matched
literally; the ASCII-folding of the `i` flag does not touch them (JS would
also case-fold the Cyrillic letters, which no input considered here
contains). -/
def euroSeq : Str := [Char.ofNat 1074, Char.ofNat 8218, Char.ofNat 172]

def poundSeq : Str := [Char.ofNat 1042, Char.ofNat 1032]

/-- `(?:C?A?\$|US\$|\$|в‚¬|ВЈ)` of resolvers.ts. -/
def symR (ci : Bool) : M :=
  let ch := fun (k ku : Char) => if ci then mChar (fun c => ciEq c k) else mCh ku
  mAltL
    [mSeq (mOpt (ch 'c' 'C')) (mSeq (mOpt (ch 'a' 'A')) (mCh '$')),
     mSeq (ch 'u' 'U') (mSeq (ch 's' 'S') (mCh '$')),
     mCh '$',
     mStrX euroSeq,
     mStrX poundSeq]

/-- `/https?:\/\//i`. -/
def httpM : M :=
  mSeq (mStrCI ['h', 't', 't', 'p'])
    (mSeq (mOpt (mChar (fun c => ciEq c 's'))) (mStrX [':', '/', '/']))

/-- `/\/[A-Za-z0-9._-]/`. -/
def slashWordM : M :=
  mSeq (mCh '/')
    (mChar (fun c => isAsciiLetter c || isDig c || c = '.' || c = '_' || c = '-'))

/-- The dash class of extract.ts `m4`: the source bytes decode to
U+201A U+00C4 U+00EC plus `-` (a mojibake en dash). -/
def dashE (c : Char) : Bool :=
  c = Char.ofNat 8218 || c = Char.ofNat 196 || c = Char.ofNat 236 || c = '-'

/-- The dash class of resolvers.ts `m4`: U+0432 U+0402 U+201C plus `-`. -/
def dashR (c : Char) : Bool :=
  c = Char.ofNat 1074 || c = Char.ofNat 1026 || c = Char.ofNat 8220 || c = '-'

/-- extract.ts `m1`: `/(?:C?A?\$|US\$|\$)\s*\d[\d,]*(?:\.\d{2})?/i`. -/
def m1E : M := mSeq (symE true) (mSeq sStar numE)

/-- extract.ts `m2` keyword alternation `(?:CAD|CA|USD)` /i. -/
def curAltE : M :=
  mAltL [mStrCI ['c', 'a', 'd'], mStrCI ['c', 'a'], mStrCI ['u', 's', 'd']]

def m2E : M := mSeq curAltE (mSeq sStar numE)

/-- extract.ts `m3`: `/(?:Now|From)\s*(?:C?A?\$|US\$|\$)\s*.../i`. -/
def kwE : M := mAltL [mStrCI ['n', 'o', 'w'], mStrCI ['f', 'r', 'o', 'm']]

def m3E : M := mSeq kwE (mSeq sStar (mSeq (symE true) (mSeq sStar numE)))

/-- extract.ts `m4` (no `i` flag): the price range. -/
def m4E : M :=
  mSeq (symE false) (mSeq sStar (mSeq numE (mSeq sStar (mSeq (mChar dashE)
    (mSeq sStar (mSeq (symE false) (mSeq sStar numE)))))))

/-- The case-sensitive `low` extraction regex inside the `m4` branch. -/
def m1Ecs : M := mSeq (symE false) (mSeq sStar numE)

/-- `normalizePriceText` from `extract.ts` (the guarded version). -/
def normalizePriceTextE (txt : Str) : Option Str :=
  if txt = [] then none
  else if testM httpM txt || testM slashWordM txt then none
  else
    match findM m1E (trimJS (collapseWS txt)) with
    | some m => some (removeWS m)
    | none =>
      match findM m2E (trimJS (collapseWS txt)) with
      | some m => some (replAnchored curAltE ['$'] (removeWS m))
      | none =>
        match findM m3E (trimJS (collapseWS txt)) with
        | some m => some (removeWS (replAnchored (mSeq kwE sStar) [] m))
        | none =>
          match findM m4E (trimJS (collapseWS txt)) with
          | some m => (findM m1Ecs m).map removeWS
          | none => none

/-- resolvers.ts currency-code alternation `(?:CAD|CA|USD|EUR|GBP)` /i. -/
def curAltR : M :=
  mAltL [mStrCI ['c', 'a', 'd'], mStrCI ['c', 'a'], mStrCI ['u', 's', 'd'],
    mStrCI ['e', 'u', 'r'], mStrCI ['g', 'b', 'p']]

def m1R : M := mSeq (symR true) (mSeq sStar numR)

/-- resolvers.ts `m2`: prefix or suffix currency code. -/
def m2R : M :=
  mAltL [mSeq curAltR (mSeq sStar numR), mSeq numR (mSeq sStar curAltR)]

/-- `As\s+low\s+as` /i. -/
def asLowAs : M :=
  mSeq (mStrCI ['a', 's']) (mSeq sPlus (mSeq (mStrCI ['l', 'o', 'w'])
    (mSeq sPlus (mStrCI ['a', 's']))))

def kwR3 : M :=
  mAltL [mStrCI ['n', 'o', 'w'], mStrCI ['f', 'r', 'o', 'm'], asLowAs]

def m3R : M := mSeq kwR3 (mSeq sStar (mSeq (symR true) (mSeq sStar numR)))

def m4R : M :=
  mSeq (symR false) (mSeq sStar (mSeq numR (mSeq sStar (mSeq (mChar dashR)
    (mSeq sStar (mSeq (symR false) (mSeq sStar numR)))))))

def m1Rcs : M := mSeq (symR false) (mSeq sStar numR)

/-- `Our\s+price` /i. -/
def ourPrice : M := mSeq (mStrCI ['o', 'u', 'r']) (mSeq sPlus (mStrCI ['p', 'r', 'i', 'c', 'e']))

/-- The `nearPrice` keyword alternation. -/
def npKw : M :=
  mAltL [mStrCI ['p', 'r', 'i', 'c', 'e'], mStrCI ['f', 'r', 'o', 'm'],
    mStrCI ['n', 'o', 'w'], asLowAs, ourPrice]

/-- `\b` after a word character: the next char must not be a word char. -/
def boundAfterWord : M := fun l =>
  match l with
  | [] => [[]]
  | c :: _ => if isWordChar c then [] else [l]

/-- The part of `nearPrice` before the captured number:
`\b(price|from|now|as\s+low\s+as|our\s+price)\b[^0-9]{0,12}`. -/
def npPre : M := mSeq npKw (mSeq boundAfterWord (mRepMax (fun c => !isDig c) 12))

/-- The `nearPrice` scan of resolvers.ts, returning capture group 2 (the
number).  `prev` carries the previous character for the leading `\b` (every
keyword starts with a word character). -/
def nearPriceGo (m : M) : Option Char → Str → Option Str
  | prev, l =>
    let boundaryOK :=
      match prev with
      | none => true
      | some c => !isWordChar c
    let attempt : Option Str :=
      if boundaryOK then
        ((npPre l).flatMap (fun rest1 =>
          (m rest1).map (fun rest2 =>
            rest1.take (rest1.length - rest2.length)))).head?
      else none
    match attempt with
    | some g => some g
    | none =>
      match l with
      | [] => none
      | c :: r => nearPriceGo m (some c) r

def nearPrice (s : Str) : Option Str := nearPriceGo numR none s

/-- `normalizePriceText` from `resolvers.ts` (no URL guard, extra
`nearPrice` last resort). -/
def normalizePriceTextR (txt : Str) : Option Str :=
  if txt = [] then none
  else
    match findM m1R (trimJS (collapseWS txt)) with
    | some m => some (removeWS m)
    | none =>
      match findM m2R (trimJS (collapseWS txt)) with
      | some m =>
        let s := removeWS m
        let num :=
          match splitFirst (mSeq curAltR mEnd) (replAnchored curAltR [] s) with
          | some (pre, _, rest) => pre ++ rest
          | none => replAnchored curAltR [] s
        match num with
        | c :: _ => if isDig c then some ('$' :: num) else some s
        | [] => some s
      | none =>
        match findM m3R (trimJS (collapseWS txt)) with
        | some m => some (removeWS (replAnchored (mSeq kwR3 sStar) [] m))
        | none =>
          match findM m4R (trimJS (collapseWS txt)) with
          | some m =>
            match findM m1Rcs m with
            | some low => some (removeWS low)
            | none =>
              match nearPrice (trimJS (collapseWS txt)) with
              | some g => some ('$' :: removeWS g)
              | none => none
          | none =>
            match nearPrice (trimJS (collapseWS txt)) with
            | some g => some ('$' :: removeWS g)
            | none => none

/-- `extractMoney` from `resolvers.ts`. -/
def extractMoney (t : Str) : Option Str :=
  if t = [] then none else normalizePriceTextR t

/-! ### `resolvePrice` from `resolvers.ts`

The DOM reads of the four stages are oracle data; the stage logic and every
text-to-money computation is the code's.  The floating-point confidence
scores are replaced by the stage tag (no claim mentions them). -/

structure LdOffer where
  price : Option Str
deriving DecidableEq, Repr, Inhabited

/-- The `offers` field of a JSON-LD product: absent, an object, or an
array. -/
inductive LdOffers
  | absent
  | obj (o : LdOffer)
  | arr (l : List LdOffer)
deriving DecidableEq, Repr, Inhabited

structure LdProduct where
  offers : LdOffers
  price : Option Str
deriving DecidableEq, Repr, Inhabited

/-- `p?.offers?.price ?? (Array.isArray(p?.offers) ? p.offers[0]?.price :
null) ?? p?.price`. -/
def ldPriceOf (p : LdProduct) : Option Str :=
  match p.offers with
  | .obj o => match o.price with | some v => some v | none => p.price
  | .arr l =>
    match l with
    | o :: _ => match o.price with | some v => some v | none => p.price
    | [] => p.price
  | .absent => p.price

/-- The DOM observations one `resolvePrice` call makes. -/
structure PriceCtx where
  /-- `ctx.$doc` present. -/
  docPresent : Bool
  /-- `extractJsonLdProducts(ctx.$doc)`. -/
  products : List LdProduct
  /-- text of the first non-empty price-selector node in the card or its
  parent (`null` if neither exists). -/
  cardPriceText : Option Str
  /-- texts of the found learned-selector nodes, in selector order. -/
  learnedTexts : List Str
  /-- text of the first `a:has(.price), ...` anchor, if any. -/
  linkNearbyText : Option Str
  /-- `textOf($, card)`. -/
  cardText : Str
deriving DecidableEq, Repr, Inhabited

inductive PriceSource
  | ldjson | card | learned | linkNear | regex
deriving DecidableEq, Repr, Inhabited

def firstMoney : List Str → Option Str
  | [] => none
  | t :: ts => match extractMoney t with | some m => some m | none => firstMoney ts

/-- `resolvePrice` (value and source; stage scores dropped). -/
def resolvePrice (ctx : PriceCtx) : Option (Str × PriceSource) :=
  let stage0 : Option Str :=
    if ctx.docPresent then
      match ctx.products with
      | p :: _ => ldPriceOf p
      | [] => none
    else none
  match stage0 with
  | some val => some ((normalizePriceTextR val).getD val, .ldjson)
  | none =>
    match ctx.cardPriceText.bind extractMoney with
    | some money => some (money, .card)
    | none =>
      match firstMoney ctx.learnedTexts with
      | some money => some (money, .learned)
      | none =>
        match ctx.linkNearbyText.bind extractMoney with
        | some money => some (money, .linkNear)
        | none =>
          match extractMoney ctx.cardText with
          | some m => some (m, .regex)
          | none => none

/-! ## Claim C5 -/

/-- The literal `http://`. -/
def httpLit : Str := ['h', 't', 't', 'p', ':', '/', '/']

theorem httpM_at (post : Str) : httpM (httpLit ++ post) = [post] := by
  simp [httpM, httpLit, mStrCI, mStrX, mSeq, mOpt, mChar, mCh, mEps, ciEq]

theorem splitGo_acc_irrel (m : M) :
    ∀ (l a b : Str), (splitGo m a l).isSome = (splitGo m b l).isSome := by
  intro l
  induction l with
  | nil =>
    intro a b
    rw [splitGo, splitGo]
    cases (m []).head? <;> simp
  | cons d r ihr =>
    intro a b
    rw [splitGo, splitGo]
    cases (m (d :: r)).head? with
    | some rest => simp
    | none => exact ihr (d :: a) (d :: b)

theorem testM_append (m : M) (mid : Str)
    (hm : ∀ post, m (mid ++ post) ≠ []) :
    ∀ (pre post : Str), testM m (pre ++ (mid ++ post)) = true := by
  intro pre
  induction pre with
  | nil =>
    intro post
    unfold testM splitFirst
    simp only [List.nil_append]
    refine splitGo_isSome_of_match ?_
    cases hh : (m (mid ++ post)).head? with
    | some rest => simp
    | none => exact absurd (List.head?_eq_none_iff.mp hh) (hm post)
  | cons c pre ih =>
    intro post
    unfold testM splitFirst
    show (splitGo m [] (c :: (pre ++ (mid ++ post)))).isSome = true
    rw [splitGo]
    cases hh : (m (c :: (pre ++ (mid ++ post)))).head? with
    | some rest => simp
    | none =>
      have := ih post
      unfold testM splitFirst at this
      rw [splitGo_acc_irrel m _ [c] []]
      exact this

/-- C5 (amended): the three normalization examples hold of the guarded
`normalizePriceText` in `extract.ts`, and that function returns no price for
any text containing `http://`; the resolver-side `normalizePriceText` in
`resolvers.ts`, used by the deep price fallback `resolvePrice`, has no URL
guard (see the counterexample). -/
theorem C5_price_normalization_amended :
    normalizePriceTextE ['N', 'o', 'w', ' ', '$', '4', '9', '.', '9', '9'] =
      some ['$', '4', '9', '.', '9', '9'] ∧
    normalizePriceTextE ['$', '5', '0', ' ', '–', ' ', '$', '7', '0'] =
      some ['$', '5', '0'] ∧
    normalizePriceTextE ['C', 'A', 'D', ' ', '1', '2', '.', '9', '9'] =
      some ['$', '1', '2', '.', '9', '9'] ∧
    (∀ pre post : Str,
      normalizePriceTextE (pre ++ (httpLit ++ post)) = none) := by
  refine ⟨by decide, by decide, by decide, fun pre post => ?_⟩
  have hg : testM httpM (pre ++ (httpLit ++ post)) = true := by
    refine testM_append httpM httpLit (fun p => ?_) pre post
    rw [httpM_at]
    simp
  unfold normalizePriceTextE
  split
  · rfl
  · rw [hg]
    simp

/-- Witness for C5 (amended): the universally-quantified guard clause at a
concrete URL-bearing input. -/
theorem C5_price_normalization_amended_witness :
    normalizePriceTextE
      (['s', 'e', 'e', ' '] ++ (httpLit ++ ['x', ' ', '$', '5'])) = none :=
  C5_price_normalization_amended.2.2.2 ['s', 'e', 'e', ' '] ['x', ' ', '$', '5']

/-- The concrete resolver context of the C5 counterexample: an empty page
except for the card text `from http://a 12.99`. -/
def c5ctx : PriceCtx where
  docPresent := false
  products := []
  cardPriceText := none
  learnedTexts := []
  linkNearbyText := none
  cardText :=
    ['f', 'r', 'o', 'm', ' '] ++ httpLit ++ ['a', ' ', '1', '2', '.', '9', '9']

/-- C5 (counterexample to the claim as stated): the card text
`from http://a 12.99` contains `http://`, yet the resolver-side
`normalizePriceText` (resolvers.ts, named in the claim) produces the price
`$12.99` through its `nearPrice` branch, and `resolvePrice`'s final
regex-over-card-text stage returns it — so a URL-bearing text *can* yield a
price on the deep fallback path. -/
theorem C5_counterexample :
    c5ctx.cardText =
      ['f', 'r', 'o', 'm', ' '] ++ httpLit ++ ['a', ' ', '1', '2', '.', '9', '9'] ∧
    normalizePriceTextR c5ctx.cardText =
      some ['$', '1', '2', '.', '9', '9'] ∧
    resolvePrice c5ctx =
      some (['$', '1', '2', '.', '9', '9'], PriceSource.regex) := by
  refine ⟨rfl, by decide, by decide⟩

/-! ## `engine.raw.ts`: item post-processing

`new URL(href, baseUrl).toString()` is the oracle `resolve` (`none` models a
thrown `TypeError`); everything else is the code's. -/

structure RawItem where
  title : Option Str := none
  href : Option Str := none
  price : Option Str := none
  image : Option Str := none
  description : Option Str := none
  images : List Str := []
  salePrice : Option Str := none
  compareAt : Option Str := none
deriving DecidableEq, Repr, Inhabited

/-- JS truthiness of a possibly-absent string. -/
def truthy : Option Str → Bool
  | some s => s ≠ []
  | none => false

/-- `String(x)` on a possibly-absent string (`undefined` stringifies!). -/
def strOfJS (o : Option Str) : Str :=
  o.getD ['u', 'n', 'd', 'e', 'f', 'i', 'n', 'e', 'd']

/-- `toAbsUrl`: `new URL(href, base).toString()` with the `catch` returning
the input. -/
def toAbsUrl (resolve : Str → Option Str) (href : Option Str) : Option Str :=
  match href with
  | none => none
  | some h =>
    if h = [] then some []
    else match resolve h with
      | some u => some u
      | none => some h

/-- `replace(/\/+$/, "")`. -/
def stripTrailSlashes (l : Str) : Str :=
  (l.reverse.dropWhile (fun c => c = '/')).reverse

/-- The `(\?|&)utm_[^=]+=[^&]+` matcher (`/gi`). -/
def utmM : M :=
  mSeq (mChar (fun c => c = '?' || c = '&'))
    (mSeq (mStrCI ['u', 't', 'm', '_'])
      (mSeq (mSeq (mChar (fun c => c ≠ '=')) (mStar (fun c => c ≠ '=')))
        (mSeq (mCh '=')
          (mSeq (mChar (fun c => c ≠ '&')) (mStar (fun c => c ≠ '&'))))))

/-- Global replace-by-empty of a matcher (the fuel bounds the number of
matches; every `utmM` match consumes at least one character, so the fuel
`l.length + 1` is never exhausted and an empty match stops the scan). -/
def replaceAllGo (m : M) : Nat → Str → Str
  | 0, l => l
  | fuel + 1, l =>
    match splitFirst m l with
    | some (pre, matched, rest) =>
      if matched = [] then l else pre ++ replaceAllGo m fuel rest
    | none => l

def replaceAllM (m : M) (l : Str) : Str := replaceAllGo m (l.length + 1) l

/-- `replace(/[?&]$/, "")`. -/
def dropTrailQA (l : Str) : Str :=
  match l.reverse with
  | c :: r => if c = '?' || c = '&' then r.reverse else l
  | [] => l

/-- `canonicalHref` from `engine.raw.ts`. -/
def canonicalHref (href : Option Str) : Option Str :=
  match href with
  | none => none
  | some h =>
    if h = [] then some []
    else some (dropTrailQA (replaceAllM utmM (stripTrailSlashes h)))

/-- Case-insensitive whole-string match against a lowercase pattern
(`/^pat$/i.test`). -/
def ciWhole (pat s : Str) : Bool :=
  match ciPref pat s with
  | some [] => true
  | _ => false

/-- `stripBoilerplateDescription`. -/
def stripBoilerplateDescription (d : Option Str) : Option Str :=
  match d with
  | none => none
  | some s =>
    if s = [] then some []
    else
      let t := trimJS s
      if ciWhole ['s', 'h', 'o', 'p', ' ', 'h', 'p', 'g', ' ',
          'b', 'r', 'a', 'n', 'd', 's'] t then some []
      else if ciWhole ['l', 'e', 'a', 'r', 'n', ' ', 'm', 'o', 'r', 'e'] t then some []
      else some t

/-- `coalescePrice`. -/
def coalescePrice (it : RawItem) : RawItem :=
  let pick := fun (s : Option Str) =>
    match s with
    | some v => if v ≠ [] ∧ v.any isDig then some v else none
    | none => none
  { it with
    price :=
      match pick it.salePrice with
      | some v => some v
      | none =>
        match pick it.price with
        | some v => some v
        | none =>
          match pick it.compareAt with
          | some v => some v
          | none => it.price }

/-- The per-item canonicalization done inside `dedupeItems`' loop. -/
def canonItem (resolve : Str → Option Str) (raw : RawItem) : RawItem :=
  let it1 := { raw with href := canonicalHref (toAbsUrl resolve raw.href) }
  let it2 := { it1 with description := stripBoilerplateDescription it1.description }
  let it3 :=
    if it2.images ≠ [] ∧ ¬(truthy it2.image = true) then
      match it2.images with
      | i :: _ => { it2 with image := some i }
      | [] => it2
    else it2
  coalescePrice it3

/-- The broken-bar separator of the dedup key. -/
def brokenBar : Str := [Char.ofNat 166]

/-- The dedup key `(it.href || "") + "¦" + (it.title || "")`. -/
def keyOfI (it : RawItem) : Str :=
  it.href.getD [] ++ brokenBar ++ it.title.getD []

/-- The loop of `dedupeItems` (`seen` is the key set). -/
def dedupeGoI (resolve : Str → Option Str) :
    List RawItem → List Str → List RawItem
  | [], _ => []
  | raw :: rest, seen =>
    let it := canonItem resolve raw
    if truthy it.href ∧ ¬(seen.contains (keyOfI it) = true) then
      it :: dedupeGoI resolve rest (keyOfI it :: seen)
    else dedupeGoI resolve rest seen

/-- `dedupeItems` from `engine.raw.ts`. -/
def dedupeItems (resolve : Str → Option Str) (items : List RawItem) :
    List RawItem :=
  dedupeGoI resolve items []

/-- The currency-token test of `scoreItem`:
`/(\$|cad|usd|msrp|from)/i`. -/
def curTokM : M :=
  mAltL [mCh '$', mStrCI ['c', 'a', 'd'], mStrCI ['u', 's', 'd'],
    mStrCI ['m', 's', 'r', 'p'], mStrCI ['f', 'r', 'o', 'm']]

/-- `/\/[a-z0-9]{2,}\//i`. -/
def skuM : M :=
  mSeq (mCh '/')
    (mSeq (mChar (fun c => isAsciiLetter c || isDig c))
      (mSeq (mChar (fun c => isAsciiLetter c || isDig c))
        (mSeq (mStar (fun c => isAsciiLetter c || isDig c)) (mCh '/'))))

/-- `scoreItem` from `engine.raw.ts`. -/
def scoreItem (it : RawItem) : Int :=
  (if truthy it.title then 2 else 0) +
  (if truthy it.title ∧ (it.title.getD []).length ≥ 20 then 1 else 0) +
  (if truthy it.href then 2 else 0) +
  (if truthy it.price then 2 else 0) +
  (if (it.price.getD []).any isDig ∧ testM curTokM (strOfJS it.price)
    then 1 else 0) +
  (if truthy it.image then 1 else 0) +
  (if truthy it.href ∧ testM skuM (it.href.getD []) then 1 else 0) +
  (if truthy it.description ∧ (it.description.getD []).length > 10 then 1 else 0)

/-- `localeCompare`, modelled as code-unit comparison (the hrefs and titles
compared here are ASCII). -/
def strCmp (a b : Str) : Int := if a < b then -1 else if b < a then 1 else 0

/-- The sort comparator
`(b._score - a._score) || titleCompare || hrefCompare`. -/
def itemCmp (a b : RawItem × Int) : Int :=
  let c1 := b.2 - a.2
  if c1 ≠ 0 then c1
  else
    let c2 := strCmp (strOfJS a.1.title) (strOfJS b.1.title)
    if c2 ≠ 0 then c2 else strCmp (strOfJS a.1.href) (strOfJS b.1.href)

/-- Stable comparator sort (JS `Array.prototype.sort` is stable). -/
def insCmp (x : RawItem × Int) : List (RawItem × Int) → List (RawItem × Int)
  | [] => [x]
  | y :: l => if itemCmp x y ≤ 0 then x :: y :: l else y :: insCmp x l

def sortCmp : List (RawItem × Int) → List (RawItem × Int)
  | [] => []
  | x :: xs => insCmp x (sortCmp xs)

/-- `postProcessItems` from `engine.raw.ts` (the attached `_score` is the
pair's second component). -/
def postProcessItems (resolve : Str → Option Str) (items : List RawItem) :
    List (RawItem × Int) :=
  sortCmp ((dedupeItems resolve items).map (fun it => (it, scoreItem it)))

/-- A URL resolver for concrete dedup runs (`new URL` always failing, so
hrefs pass through unresolved). -/
def c8res : Str → Option Str := fun _ => none

/-- A sparse raw item: title and href only. -/
def c8sparse : RawItem := { title := some ['t'], href := some ['h'] }

/-- A rich raw item with the same title and href but also price, image and a
long description — strictly higher `scoreItem` and more populated fields. -/
def c8rich : RawItem :=
  { title := some ['t'], href := some ['h'], price := some ['$', '5'],
    image := some ['i'],
    description := some ['d', 'e', 's', 'c', 'r', 'i', 'p', 't', 'i', 'o', 'n', 's'] }

/-- Same href as `c8b` but a different title. -/
def c8a : RawItem := { title := some ['a'], href := some ['h'] }

/-- Same href as `c8a` but a different title. -/
def c8b : RawItem := { title := some ['b'], href := some ['h'] }

/-! ## Claims C10 and C8 -/

theorem insCmp_perm (x : RawItem × Int) (l : List (RawItem × Int)) :
    (insCmp x l).Perm (x :: l) := by
  induction l with
  | nil => rfl
  | cons y l ih =>
    rw [insCmp]
    split
    · rfl
    · exact (ih.cons y).trans (List.Perm.swap x y l)

theorem sortCmp_perm (l : List (RawItem × Int)) : (sortCmp l).Perm l := by
  induction l with
  | nil => rfl
  | cons x xs ih => exact (insCmp_perm x (sortCmp xs)).trans (ih.cons x)

theorem dedupeGoI_truthy {resolve : Str → Option Str} :
    ∀ {raws : List RawItem} {seen : List Str} {it : RawItem},
    it ∈ dedupeGoI resolve raws seen → truthy it.href = true := by
  intro raws
  induction raws with
  | nil => intro seen it h; simp [dedupeGoI] at h
  | cons raw rest ih =>
    intro seen it h
    rw [dedupeGoI] at h
    split at h
    · next hcond =>
      rcases List.mem_cons.mp h with rfl | h'
      · exact hcond.1
      · exact ih h'
    · exact ih h

theorem dedupeGoI_sublist (resolve : Str → Option Str) :
    ∀ (raws : List RawItem) (seen : List Str),
    (dedupeGoI resolve raws seen).Sublist (raws.map (canonItem resolve)) := by
  intro raws
  induction raws with
  | nil => intro seen; simp [dedupeGoI]
  | cons raw rest ih =>
    intro seen
    rw [dedupeGoI, List.map_cons]
    split
    · exact (ih _).cons₂ _
    · exact (ih _).cons _

theorem dedupeGoI_keys_nodup {resolve : Str → Option Str} :
    ∀ (raws : List RawItem) (seen : List Str),
    ((dedupeGoI resolve raws seen).map keyOfI).Nodup ∧
    ∀ k ∈ (dedupeGoI resolve raws seen).map keyOfI, k ∉ seen := by
  intro raws
  induction raws with
  | nil => intro seen; simp [dedupeGoI]
  | cons raw rest ih =>
    intro seen
    rw [dedupeGoI]
    split
    · next hcond =>
      obtain ⟨ihnd, ihns⟩ := ih (keyOfI (canonItem resolve raw) :: seen)
      simp only [List.map_cons]
      constructor
      · refine List.nodup_cons.mpr ⟨fun hmem => ?_, ihnd⟩
        exact ihns _ hmem (by simp)
      · intro k hk
        rcases List.mem_cons.mp hk with rfl | hk'
        · intro hmem
          exact hcond.2 (List.elem_eq_true_of_mem hmem)
        · intro hmem
          exact ihns k hk' (List.mem_cons_of_mem _ hmem)
    · obtain ⟨ihnd, ihns⟩ := ih seen
      exact ⟨ihnd, ihns⟩

theorem dedupeGoI_key_present {resolve : Str → Option Str} :
    ∀ (raws : List RawItem) (seen : List Str) (c : RawItem),
    c ∈ raws.map (canonItem resolve) → truthy c.href = true →
    keyOfI c ∈ seen ∨
    ∃ out ∈ dedupeGoI resolve raws seen, keyOfI out = keyOfI c := by
  intro raws
  induction raws with
  | nil => intro seen c hc; simp at hc
  | cons raw rest ih =>
    intro seen c hc htr
    rw [List.map_cons] at hc
    rw [dedupeGoI]
    rcases List.mem_cons.mp hc with rfl | hc'
    · split
      · exact Or.inr ⟨canonItem resolve raw, by simp, rfl⟩
      · next hcond =>
        have hseen : (seen.contains (keyOfI (canonItem resolve raw))) = true := by
          by_contra hcn
          exact hcond ⟨htr, by simpa using hcn⟩
        exact Or.inl (List.mem_of_elem_eq_true hseen)
    · split
      · rcases ih (keyOfI (canonItem resolve raw) :: seen) c hc' htr with hs | ⟨o, ho, hk⟩
        · rcases List.mem_cons.mp hs with heq | hs'
          · exact Or.inr ⟨canonItem resolve raw, by simp, heq.symm⟩
          · exact Or.inl hs'
        · exact Or.inr ⟨o, List.mem_cons_of_mem _ ho, hk⟩
      · rcases ih seen c hc' htr with hs | ⟨o, ho, hk⟩
        · exact Or.inl hs
        · exact Or.inr ⟨o, ho, hk⟩

theorem dedupeGoI_first {resolve : Str → Option Str} :
    ∀ (raws : List RawItem) (seen : List Str) (pre : List RawItem)
      (c : RawItem) (rest : List RawItem),
    raws.map (canonItem resolve) = pre ++ c :: rest →
    truthy c.href = true →
    (∀ p ∈ pre, truthy p.href = true → keyOfI p ≠ keyOfI c) →
    keyOfI c ∉ seen →
    c ∈ dedupeGoI resolve raws seen := by
  intro raws
  induction raws with
  | nil =>
    intro seen pre c rest heq
    simp only [List.map_nil] at heq
    exact absurd heq.symm (by simp)
  | cons raw raws ih =>
    intro seen pre c rest heq htr hpre hseen
    rw [List.map_cons] at heq
    rw [dedupeGoI]
    cases pre with
    | nil =>
      simp only [List.nil_append] at heq
      have hc : canonItem resolve raw = c := (List.cons_eq_cons.mp heq).1
      rw [if_pos ⟨hc ▸ htr, by rw [hc]; simpa using hseen⟩]
      exact hc ▸ List.mem_cons_self _ _
    | cons p0 pre' =>
      have hp0 : canonItem resolve raw = p0 := by
        simpa using (List.cons_eq_cons.mp (by simpa using heq)).1
      have hrest : raws.map (canonItem resolve) = pre' ++ c :: rest := by
        have := (List.cons_eq_cons.mp (by simpa using heq)).2
        simpa using this
      have hp0pre : p0 ∈ p0 :: pre' := by simp
      split
      · next hcond =>
        refine List.mem_cons_of_mem _ ?_
        refine ih _ pre' c rest hrest htr
          (fun p hp => hpre p (List.mem_cons_of_mem _ hp)) ?_
        intro hmem
        rcases List.mem_cons.mp hmem with heq' | hmem'
        · have : truthy p0.href = true := hp0 ▸ hcond.1
          exact hpre p0 hp0pre this (by rw [← hp0, ← heq'])
        · exact hseen hmem'
      · refine ih _ pre' c rest hrest htr
          (fun p hp => hpre p (List.mem_cons_of_mem _ hp)) hseen

theorem canonItem_href (resolve : Str → Option Str) (raw : RawItem) :
    (canonItem resolve raw).href = canonicalHref (toAbsUrl resolve raw.href) := by
  unfold canonItem coalescePrice
  dsimp only
  split
  · split <;> rfl
  · rfl

/-- C10: post-processing requires an href — every item returned by
`postProcessItems` has a truthy (non-empty) canonicalized href, and an input
item with no href at all is discarded entirely, regardless of its other
fields. -/
theorem C10_postProcess_drops_hrefless (resolve : Str → Option Str) :
    (∀ (items : List RawItem) (out : RawItem × Int),
      out ∈ postProcessItems resolve items → truthy out.1.href = true) ∧
    (∀ (it : RawItem) (items : List RawItem), it.href = none →
      postProcessItems resolve (it :: items) = postProcessItems resolve items) := by
  constructor
  · intro items out hout
    unfold postProcessItems at hout
    have hmem := (sortCmp_perm _).mem_iff.mp hout
    rcases List.mem_map.mp hmem with ⟨it, hit, rfl⟩
    exact dedupeGoI_truthy hit
  · intro it items hhref
    unfold postProcessItems dedupeItems
    have hskip : dedupeGoI resolve (it :: items) [] = dedupeGoI resolve items [] := by
      rw [dedupeGoI]
      rw [if_neg]
      intro hcond
      have h1 : (canonItem resolve it).href = none := by
        rw [canonItem_href, hhref]; rfl
      have h2 : truthy (canonItem resolve it).href = false := by
        rw [h1]; rfl
      rw [h2] at hcond
      exact absurd hcond.1 (by simp)
    rw [hskip]

/-- Witness for C10: the second clause applied to a concrete href-less item
rich in other fields. -/
theorem C10_postProcess_drops_hrefless_witness :
    ({ title := some ['t'], price := some ['$', '5'],
       image := some ['i'], description := some ['d'] } : RawItem).href = none ∧
    postProcessItems (fun s => some s)
      [{ title := some ['t'], price := some ['$', '5'],
         image := some ['i'], description := some ['d'] }] =
      postProcessItems (fun s => some s) [] :=
  ⟨rfl,
   (C10_postProcess_drops_hrefless (fun s => some s)).2
     { title := some ['t'], price := some ['$', '5'],
       image := some ['i'], description := some ['d'] } [] rfl⟩

/-- C8 counterexample: `dedupeItems` keeps the FIRST item seen for the dedup
key canonicalized href + "¦" + title, even when a later item with the same key
has a strictly higher score and more populated fields (the sort in
`postProcessItems` runs after dedup, so it cannot restore the richer item);
and two items with the same canonicalized href but different titles are not
collapsed at all. -/
theorem C8_counterexample :
    scoreItem (canonItem c8res c8sparse) < scoreItem (canonItem c8res c8rich) ∧
    keyOfI (canonItem c8res c8sparse) = keyOfI (canonItem c8res c8rich) ∧
    dedupeItems c8res [c8sparse, c8rich] = [canonItem c8res c8sparse] ∧
    (postProcessItems c8res [c8sparse, c8rich]).map Prod.fst =
      [canonItem c8res c8sparse] ∧
    (canonItem c8res c8a).href = (canonItem c8res c8b).href ∧
    dedupeItems c8res [c8a, c8b] =
      [canonItem c8res c8a, canonItem c8res c8b] := by
  decide

/-- C8 (amended): post-processing dedups under the key canonicalized
href + "¦" + title and keeps, for each key, the FIRST canonicalized item with
a truthy href bearing that key — not the higher-scored or field-richer one:
output keys are pairwise distinct; the output is a sublist of the
canonicalized inputs in input order; every truthy-href canonicalized input's
key is represented; the first truthy-href occurrence of each key itself
survives; and `postProcessItems` merely permutes (sorts) the scored dedup
output. -/
theorem C8_dedupe_amended (resolve : Str → Option Str) (items : List RawItem) :
    ((dedupeItems resolve items).map keyOfI).Nodup ∧
    (dedupeItems resolve items).Sublist (items.map (canonItem resolve)) ∧
    (∀ c ∈ items.map (canonItem resolve), truthy c.href = true →
      ∃ out ∈ dedupeItems resolve items, keyOfI out = keyOfI c) ∧
    (∀ (pre : List RawItem) (c : RawItem) (rest : List RawItem),
      items.map (canonItem resolve) = pre ++ c :: rest →
      truthy c.href = true →
      (∀ p ∈ pre, truthy p.href = true → keyOfI p ≠ keyOfI c) →
      c ∈ dedupeItems resolve items) ∧
    (postProcessItems resolve items).Perm
      ((dedupeItems resolve items).map fun it => (it, scoreItem it)) := by
  refine ⟨(dedupeGoI_keys_nodup items []).1, dedupeGoI_sublist resolve items [],
    ?_, ?_, sortCmp_perm _⟩
  · intro c hc htr
    rcases dedupeGoI_key_present items [] c hc htr with h | h
    · simp at h
    · exact h
  · intro pre c rest heq htr hpre
    exact dedupeGoI_first items [] pre c rest heq htr hpre (by simp)

/-- Witness for C8 amended: the first-occurrence clause applied to the
concrete sparse/rich pair — the sparse first item survives dedup. -/
theorem C8_dedupe_amended_witness :
    canonItem c8res c8sparse ∈ dedupeItems c8res [c8sparse, c8rich] :=
  (C8_dedupe_amended c8res [c8sparse, c8rich]).2.2.2.1
    [] (canonItem c8res c8sparse) [canonItem c8res c8rich]
    (by decide) (by decide) (by simp)

/-! ## C7: `planForField` and `readField` (`extract.ts`) -/

/-- The field names `planForField`/`readField` are called with. -/
inductive FName where
  | title
  | href
  | price
  | image
  | description
deriving DecidableEq, Repr

/-- A learned per-field entry (`learnedFields?.[name]`): `sel` and `attr`
may each be a single string or an array, `html` toggles markup mode. -/
structure LF where
  sel : Option (Sum Str (List Str)) := none
  attr : Option (Sum Str (List Str)) := none
  html : Bool := false
deriving DecidableEq, Repr, Inhabited

/-- `Array.isArray(lf.sel) ? lf.sel : lf.sel ? [lf.sel] : []` (an empty
string is falsy, an array — even empty — is truthy). -/
def selsOfLF : Option (Sum Str (List Str)) → List Str
  | some (Sum.inr l) => l
  | some (Sum.inl s) => if s = [] then [] else [s]
  | none => []

/-- The default attribute preference of `planForField`. -/
def defaultAttrs : List Str :=
  [['h', 'r', 'e', 'f'], ['s', 'r', 'c'],
   ['d', 'a', 't', 'a', '-', 's', 'r', 'c'],
   ['d', 'a', 't', 'a', '-', 's', 'r', 'c', 's', 'e', 't'],
   ['c', 'o', 'n', 't', 'e', 'n', 't']]

/-- `lf.attr ? (Array.isArray(lf.attr) ? lf.attr : [lf.attr]) : defaults`. -/
def attrOfLF : Option (Sum Str (List Str)) → List Str
  | some (Sum.inr l) => l
  | some (Sum.inl s) => if s = [] then defaultAttrs else [s]
  | none => defaultAttrs

/-- The read modes of a field plan. -/
inductive RMode where
  | text
  | html
deriving DecidableEq, Repr

structure FieldPlan where
  sels : List Str
  attr : List Str
  mode : List RMode
deriving DecidableEq, Repr

/-- `[...(buckets?.candidates || []), ...(buckets?.anchors || []),
...(buckets?.broad || [])]`. -/
def composedOf : Option Buckets → List Str
  | none => []
  | some b => b.candidates.getD [] ++ b.anchors.getD [] ++ b.broad.getD []

/-- `planForField` from `extract.ts` (the `""` selector prepended first means
the card node itself). -/
def planForField (name : FName) (lf : Option LF) (buckets : Option Buckets) :
    FieldPlan :=
  let l := lf.getD {}
  let sels := selsOfLF l.sel
  let composed := if sels ≠ [] then sels else composedOf buckets
  let attr0 := attrOfLF l.attr
  let attr1 :=
    if name = FName.title ∨ name = FName.description then [] else attr0
  let attr2 := if name = FName.price then [] else attr1
  let mode :=
    if name = FName.title ∨ name = FName.description then
      (if l.html then [RMode.html] else [RMode.text])
    else []
  { sels := [] :: composed, attr := attr2, mode := mode }

/-- The DOM oracle for `readField`: `find` is `card.find(s).first()` (`none`
when nothing matches), `attr`, `text`, `innerHtml` are cheerio's `el.attr`,
`el.text`, `el.html` (the last may be null). -/
structure Dom where
  find : Nat → Str → Option Nat
  attr : Nat → Str → Option Str
  text : Nat → Str
  innerHtml : Nat → Option Str

/-- The attribute loop: `const v = el.attr(a); if (v) return v.trim()`. -/
def readAttrs (d : Dom) (el : Nat) : List Str → Option Str
  | [] => none
  | a :: rest =>
    match d.attr el a with
    | some v => if v = [] then readAttrs d el rest else some (trimJS v)
    | none => readAttrs d el rest

/-- The mode loop: `html` returns `el.html()` when non-null and non-empty,
`text` returns `el.text().trim()` when non-empty. -/
def readModes (d : Dom) (el : Nat) : List RMode → Option Str
  | [] => none
  | RMode.html :: rest =>
    match d.innerHtml el with
    | some v => if v = [] then readModes d el rest else some v
    | none => readModes d el rest
  | RMode.text :: rest =>
    if trimJS (d.text el) = [] then readModes d el rest
    else some (trimJS (d.text el))

/-- The selector loop of `readField` (`const el = s ? card.find(s).first()
: card; if (!el.length) continue;` then attributes, then modes). -/
def readGo (d : Dom) (card : Nat) (plan : FieldPlan) :
    List Str → Option Str
  | [] => none
  | s :: rest =>
    match (if s = [] then some card else d.find card s) with
    | none => readGo d card plan rest
    | some el =>
      match readAttrs d el plan.attr with
      | some v => some v
      | none =>
        match readModes d el plan.mode with
        | some v => some v
        | none => readGo d card plan rest

/-- `readField` from `extract.ts`. -/
def readField (d : Dom) (card : Nat) (plan : FieldPlan) : Option Str :=
  if plan.sels = [] then none else readGo d card plan plan.sels

theorem readGo_none (d : Dom) (card : Nat) (plan : FieldPlan)
    (ha : plan.attr = []) (hm : plan.mode = []) :
    ∀ l, readGo d card plan l = none := by
  intro l
  induction l with
  | nil => rfl
  | cons s rest ih =>
    rw [readGo, ha, hm]
    cases (if s = [] then some card else d.find card s) with
    | none => exact ih
    | some el => exact ih

/-- A concrete selector for the C7 scenario. -/
def c7sel : Str := ['s']

/-- A concrete DOM: card node `0`, selector `c7sel` finds node `1`, which
carries a `content` attribute `"$5"` and text `"$5"`. -/
def c7dom : Dom :=
  { find := fun card s => if card = 0 ∧ s = c7sel then some 1 else none,
    attr := fun el a =>
      if el = 1 ∧ a = ['c', 'o', 'n', 't', 'e', 'n', 't'] then
        some ['$', '5']
      else none,
    text := fun el => if el = 1 then ['$', '5'] else [],
    innerHtml := fun _ => none }

/-- Concrete buckets whose candidates carry `c7sel`. -/
def c7buckets : Buckets := { candidates := some [c7sel] }

/-! ## C2: the extraction cascade (`runRaw` over `extractItems`) -/

/-- The page oracle for the cascade: `nodes sel` is the node list `$(sel)`
(a selector that throws is caught, yielding `[]`), `extract` is the per-card
DOM field extraction applied to the collected list nodes, `ld` is
`extractFromJsonLd`'s output for the page (items are modelled by `Nat`). -/
structure PageModel where
  nodes : Str → List Nat
  extract : List Nat → List Nat
  ld : List Nat

/-- `extractItems(html, sels, fields)` as called from `runRaw` (no learned
argument, so `getListNodes` finds nothing): collect `$(sel)` nodes over the
given selectors; with NO list nodes, fall back to JSON-LD **in this very
call**; otherwise run the DOM extraction. -/
def extractItemsM (pm : PageModel) (sels : List Str) : List Nat :=
  let listNodes := sels.flatMap pm.nodes
  if listNodes = [] then pm.ld else pm.extract listNodes

/-- The inner selector loop of `runRaw`: try each selector alone, stop at the
first call returning ≥1 item. -/
def trySingles (pm : PageModel) : List Str → Option (List Nat)
  | [] => none
  | s :: rest =>
    let res := extractItemsM pm [s]
    if res ≠ [] then some res else trySingles pm rest

/-- One bucket of `runRaw`: singles first, then the first-10 batch retry
(an empty bucket is skipped — `if (!sels.length) continue`). -/
def runBucket (pm : PageModel) (sels : List Str) : List Nat :=
  match trySingles pm sels with
  | some res => res
  | none =>
    let batch := sels.take 10
    if batch ≠ [] then extractItemsM pm batch else []

/-- The bucket loop: stop at the first bucket producing items. -/
def cascade (pm : PageModel) : List (List Str) → List Nat
  | [] => []
  | sels :: rest =>
    let res := runBucket pm sels
    if res ≠ [] then res else cascade pm rest

/-- The ordered bucket record `runRaw` builds (`Object.entries` iterates in
insertion order: list, anchors, containers, broad, candidates). -/
structure RawBuckets where
  list : List Str := []
  anchors : List Str := []
  containers : List Str := []
  broad : List Str := []
  candidates : List Str := []
deriving DecidableEq, Repr, Inhabited

/-- The item-producing part of `runRaw` (before post-processing). -/
def runRawItems (pm : PageModel) (bks : RawBuckets) : List Nat :=
  cascade pm
    [bks.list, bks.anchors, bks.containers, bks.broad, bks.candidates]

/-- The claim's words for one `extractItems` call: DOM only — no per-call
JSON-LD fallback. -/
def extractDomM (pm : PageModel) (sels : List Str) : List Nat :=
  let listNodes := sels.flatMap pm.nodes
  if listNodes = [] then [] else pm.extract listNodes

/-- The claim's singles loop (DOM only). -/
def trySinglesSpec (pm : PageModel) : List Str → Option (List Nat)
  | [] => none
  | s :: rest =>
    let res := extractDomM pm [s]
    if res ≠ [] then some res else trySinglesSpec pm rest

/-- The claim's per-bucket strategy (DOM only). -/
def runBucketSpec (pm : PageModel) (sels : List Str) : List Nat :=
  match trySinglesSpec pm sels with
  | some res => res
  | none =>
    let batch := sels.take 10
    if batch ≠ [] then extractDomM pm batch else []

/-- The claim's bucket loop (DOM only). -/
def cascadeSpec (pm : PageModel) : List (List Str) → List Nat
  | [] => []
  | sels :: rest =>
    let res := runBucketSpec pm sels
    if res ≠ [] then res else cascadeSpec pm rest

/-- The cascade as the claim words it: JSON-LD is parsed as the sole item
source only after every bucket has failed. -/
def specCascade (pm : PageModel) (bks : RawBuckets) : List Nat :=
  let r := cascadeSpec pm
    [bks.list, bks.anchors, bks.containers, bks.broad, bks.candidates]
  if r ≠ [] then r else pm.ld

/-- Selector matched by nothing on the page. -/
def c2s1 : Str := ['x']

/-- Selector matching node 42. -/
def c2s2 : Str := ['y']

/-- A page with JSON-LD product data (item 99) and a DOM list under `c2s2`
(extracting item 7); `c2s1` matches nothing. -/
def c2pm : PageModel :=
  { nodes := fun s => if s = c2s2 then [42] else [],
    extract := fun ns => if ns = [42] then [7] else [],
    ld := [99] }

/-- Buckets: `list` holds only the dead selector, `anchors` holds the live
one. -/
def c2bks : RawBuckets := { list := [c2s1], anchors := [c2s2] }

/-- C7 counterexample: for the `price` field the plan sets `attr = []` AND
`mode = []`, so `readField` returns nothing at all — even when the selected
element carries a `content` attribute and text both holding `"$5"`. The
claimed attribute priority (href, src, data-src, data-srcset, content) is
never consulted for price. -/
theorem C7_counterexample :
    (planForField FName.price none (some c7buckets)).sels = [[], c7sel] ∧
    (planForField FName.price none (some c7buckets)).attr = [] ∧
    (planForField FName.price none (some c7buckets)).mode = [] ∧
    c7dom.find 0 c7sel = some 1 ∧
    c7dom.attr 1 ['c', 'o', 'n', 't', 'e', 'n', 't'] = some ['$', '5'] ∧
    trimJS (c7dom.text 1) = ['$', '5'] ∧
    readField c7dom 0 (planForField FName.price none (some c7buckets)) =
      none := by
  decide

/-- C7 (amended): `readField` walks the plan's selectors in order with the
empty selector (always prepended first) meaning the card itself, reading
attributes before modes in the plan's fixed order; `planForField` gives
href/image the attribute priority href, src, data-src, data-srcset, content
with NO text fallback (`mode = []`); title/description disable attributes and
read text (or markup when the learned entry sets `html`); and price disables
BOTH (`attr = []` and `mode = []`), so `readField` for a price plan always
returns nothing — rather than preferring attributes over text as claimed. -/
theorem C7_readField_amended :
    (∀ lf b, (planForField FName.price lf b).attr = [] ∧
      (planForField FName.price lf b).mode = []) ∧
    (∀ d card plan, plan.attr = [] → plan.mode = [] →
      readField d card plan = none) ∧
    (∀ lf b,
      (planForField FName.title lf b).attr = [] ∧
      (planForField FName.description lf b).attr = [] ∧
      (planForField FName.title lf b).mode =
        (if (lf.getD {}).html then [RMode.html] else [RMode.text]) ∧
      (planForField FName.description lf b).mode =
        (if (lf.getD {}).html then [RMode.html] else [RMode.text])) ∧
    (∀ lf b, (lf.getD {}).attr = none →
      (planForField FName.href lf b).attr = defaultAttrs ∧
      (planForField FName.image lf b).attr = defaultAttrs ∧
      (planForField FName.href lf b).mode = [] ∧
      (planForField FName.image lf b).mode = []) ∧
    (∀ name lf b, ∃ rest, (planForField name lf b).sels = [] :: rest) ∧
    (∀ d card plan rest,
      readGo d card plan ([] :: rest) =
        match readAttrs d card plan.attr with
        | some v => some v
        | none =>
          match readModes d card plan.mode with
          | some v => some v
          | none => readGo d card plan rest) ∧
    (∀ d el a rest, d.attr el a = none →
      readAttrs d el (a :: rest) = readAttrs d el rest) ∧
    (∀ d el a rest v, d.attr el a = some v → v ≠ [] →
      readAttrs d el (a :: rest) = some (trimJS v)) := by
  refine ⟨fun lf b => ⟨rfl, rfl⟩, ?_, fun lf b => ⟨rfl, rfl, rfl, rfl⟩,
    ?_, ?_, fun d card plan rest => rfl, ?_, ?_⟩
  · intro d card plan ha hm
    unfold readField
    split
    · rfl
    · exact readGo_none d card plan ha hm _
  · intro lf b h
    refine ⟨?_, ?_, rfl, rfl⟩
    · show attrOfLF (lf.getD {}).attr = defaultAttrs
      rw [h]; rfl
    · show attrOfLF (lf.getD {}).attr = defaultAttrs
      rw [h]; rfl
  · intro name lf b
    exact ⟨_, rfl⟩
  · intro d el a rest h
    rw [readAttrs, h]
  · intro d el a rest v h hv
    rw [readAttrs, h]
    show (if v = [] then readAttrs d el rest else some (trimJS v)) =
      some (trimJS v)
    rw [if_neg hv]

/-- Witness for C7 amended: the price clause at a concrete DOM and plan —
`readField` yields nothing for the price plan. -/
theorem C7_readField_amended_witness :
    readField c7dom 0 (planForField FName.price none (some c7buckets)) =
      none :=
  C7_readField_amended.2.1 c7dom 0
    (planForField FName.price none (some c7buckets)) rfl rfl

theorem extractItemsM_ld_nil {pm : PageModel} (h : pm.ld = [])
    (sels : List Str) : extractItemsM pm sels = extractDomM pm sels := by
  unfold extractItemsM extractDomM
  rw [h]

theorem trySingles_ld_nil {pm : PageModel} (h : pm.ld = []) :
    ∀ l, trySingles pm l = trySinglesSpec pm l := by
  intro l
  induction l with
  | nil => rfl
  | cons s rest ih =>
    rw [trySingles, trySinglesSpec, extractItemsM_ld_nil h, ih]

theorem runBucket_ld_nil {pm : PageModel} (h : pm.ld = [])
    (sels : List Str) : runBucket pm sels = runBucketSpec pm sels := by
  rw [runBucket, runBucketSpec, trySingles_ld_nil h]
  cases trySinglesSpec pm sels with
  | some res => rfl
  | none => simp only [extractItemsM_ld_nil h]

theorem cascade_ld_nil {pm : PageModel} (h : pm.ld = []) :
    ∀ l, cascade pm l = cascadeSpec pm l := by
  intro l
  induction l with
  | nil => rfl
  | cons sels rest ih =>
    rw [cascade, cascadeSpec, runBucket_ld_nil h, ih]

/-- C2 counterexample: the JSON-LD fallback fires inside EVERY
`extractItems` call whose selectors match no node — it is not reserved for
after all buckets fail. On a page whose `list` bucket selector matches
nothing but which carries JSON-LD data, the cascade stops at that first
selector with the LD items; the `anchors` bucket, whose selector would have
extracted DOM item 7, is never tried — while the claim's cascade yields 7. -/
theorem C2_counterexample :
    runRawItems c2pm c2bks = [99] ∧
    specCascade c2pm c2bks = [7] ∧
    runRawItems c2pm c2bks ≠ specCascade c2pm c2bks := by
  decide

/-- C2 (amended): the bucket order, skip-empty, first-single-wins, first-10
batch retry and stop-at-first-successful-bucket structure all hold, but
JSON-LD is a per-call fallback of `extractItems`: any call whose selectors
match no node returns the page's LD items (so a dead selector in an early
bucket preempts later buckets whenever LD data exists), and only on pages
with no LD data does the cascade behave exactly as the claim words it. -/
theorem C2_cascade_amended :
    (∀ pm s, extractItemsM pm [s] =
      if pm.nodes s = [] then pm.ld else pm.extract (pm.nodes s)) ∧
    (∀ pm s rest, extractItemsM pm [s] ≠ [] →
      trySingles pm (s :: rest) = some (extractItemsM pm [s])) ∧
    (∀ pm s rest, extractItemsM pm [s] = [] →
      trySingles pm (s :: rest) = trySingles pm rest) ∧
    (∀ pm rest, cascade pm ([] :: rest) = cascade pm rest) ∧
    (∀ pm sels rest, runBucket pm sels ≠ [] →
      cascade pm (sels :: rest) = runBucket pm sels) ∧
    (∀ pm sels rest, runBucket pm sels = [] →
      cascade pm (sels :: rest) = cascade pm rest) ∧
    (∀ pm sels, trySingles pm sels = none →
      runBucket pm sels =
        if sels.take 10 ≠ [] then extractItemsM pm (sels.take 10) else []) ∧
    (∀ pm s rest, pm.nodes s = [] → pm.ld ≠ [] →
      trySingles pm (s :: rest) = some pm.ld) ∧
    (∀ pm bks, pm.ld = [] → runRawItems pm bks = specCascade pm bks) := by
  refine ⟨?_, ?_, ?_, ?_, ?_, ?_, ?_, ?_, ?_⟩
  · intro pm s
    unfold extractItemsM
    simp
  · intro pm s rest h
    rw [trySingles, if_pos h]
  · intro pm s rest h
    rw [trySingles, if_neg (by simpa using h)]
  · intro pm rest
    rw [cascade]
    show (if ([] : List Nat) ≠ [] then ([] : List Nat) else cascade pm rest) =
      cascade pm rest
    simp
  · intro pm sels rest h
    rw [cascade, if_pos h]
  · intro pm sels rest h
    rw [cascade, if_neg (by simpa using h)]
  · intro pm sels h
    rw [runBucket, h]
  · intro pm s rest hn hld
    have he : extractItemsM pm [s] = pm.ld := by
      unfold extractItemsM
      simp [hn]
    rw [trySingles, he, if_pos hld]
  · intro pm bks h
    unfold runRawItems specCascade
    rw [cascade_ld_nil h]
    rcases eq_or_ne (cascadeSpec pm
      [bks.list, bks.anchors, bks.containers, bks.broad, bks.candidates])
      [] with he | he
    · rw [he, if_neg (by simp), h]
    · rw [if_pos he]

/-- Witness for C2 amended: the LD-preemption clause at the concrete page —
the singles loop over the dead selector immediately returns the LD items. -/
theorem C2_cascade_amended_witness :
    trySingles c2pm [c2s1] = some c2pm.ld :=
  C2_cascade_amended.2.2.2.2.2.2.2.1 c2pm c2s1 [] (by decide) (by decide)

end Flowscrape
